import Mathlib

/-!
# Verification of the genetic-algorithm core of `tubeChallenge_routeFinder`

This development is a shallow embedding of the genetic-algorithm core of the
repository (files `station_route.py` and `gen_alg_LUstations.py`) together
with proofs of the behavioural properties stated about it.

Modelling conventions:

* Python `Station` objects are modelled by an abstract type `α` with
  decidable equality.  In the program every station is a distinct object
  (each is built by a separate `Station(...)` call), so Python object
  identity coincides with equality of the abstract values; where identity
  of *routes* matters (parent selection) we work with row indices into the
  population table, because distinct rows of a population always hold
  distinct `Route` objects in the program.
* The per-station dictionary `station.time_to` (built by `SetTimeTo` /
  `SetJourneyTimes`) is modelled by a partial lookup
  `dist : α → α → Option ℚ`; `dist a b = none` models a `KeyError` on
  `a.time_to[b]`.
* Durations are `float` in the program; they are modelled by `ℚ`.  All the
  arithmetic the claims mention (sums, reciprocals, cumulative sums,
  normalisation) is modelled exactly.
* Python's process-global `random` module is modelled by an explicit state
  `RState`: an abstract entropy source `RandGen` (three streams, one for
  each kind of draw the program makes) plus a counter giving the position
  of the next draw, so draws are consumed in the program's order.
  `random.seed(s)` replaces the whole state by `⟨seedGen s, 0⟩`.
* The three `while` loops that redraw random values until a side condition
  holds (`SelectParents`, `Procreate`, `Mutate`) need not terminate for an
  adversarial entropy stream, so they are given a `fuel` bound; running out
  of fuel is modelled as failure (`none`), the same channel as an uncaught
  Python exception.
* A raised exception (`KeyError` from a missing duration, `IndexError`
  from an out-of-range lookup) is modelled as `none` in the
  state-and-failure monad `GA`.
-/

namespace TubeGA

/-! ## `station_route.py`: the `Route` class

`Route.__init__` stores the path and computes `time_taken` by accumulating
`path[i].time_to[path[i+1]]` over `i = 0 … n-2`.  `routeDuration` computes
the same sum (rational addition is associative and commutative, so the
fold direction is irrelevant); a missing dictionary entry (`KeyError`)
makes the whole construction fail. -/

structure Route (α : Type) where
  path : List α
  time_taken : ℚ
deriving DecidableEq, Repr

/-- The duration loop of `Route.__init__`:
`for i in range(len(path)-1): duration += path[i].time_to[path[i+1]]`. -/
def routeDuration {α : Type} (dist : α → α → Option ℚ) : List α → Option ℚ
  | a :: b :: rest =>
    match dist a b, routeDuration dist (b :: rest) with
    | some d, some rest_d => some (d + rest_d)
    | _, _ => none
  | _ => some 0

/-- `Route(path)`: store the path and the computed duration; `none` models
the `KeyError` raised when a consecutive pair has no stored duration. -/
def Route.make {α : Type} (dist : α → α → Option ℚ) (path : List α) : Option (Route α) :=
  (routeDuration dist path).map (fun d => { path := path, time_taken := d })

/-- The spec's independent recomputation of a route's duration, stated over
the consecutive pairs of the path.  Modelled from the spec: "`duration(path)`
recomputed independently always equals the sum of consecutive pairwise
distances for that path". -/
def recomputedDuration {α : Type} (dist : α → α → Option ℚ) (path : List α) : Option ℚ :=
  ((path.zip path.tail).mapM (fun ab => dist ab.1 ab.2)).map List.sum

/-! ## The random-number model -/

/-- Abstract entropy underlying Python's global Mersenne-Twister state: a
stream for `random.random()` draws, a stream of raw integers for
`random.randint`, and a stream of index lists for `random.sample`. -/
structure RandGen where
  floats : Nat → ℚ
  ints : Nat → Nat
  perms : Nat → List Nat

/-- The process-global `random` state: the generator plus the position of
the next draw (draws are consumed in program order). -/
structure RState where
  gen : RandGen
  cnt : Nat

/-- Advance the global state by one consumed draw. -/
def RState.bump (s : RState) : RState := { s with cnt := s.cnt + 1 }

/-- The monad of the embedded program: the global `random` state plus
failure (uncaught exception / exhausted redraw fuel). -/
abbrev GA (β : Type) : Type := StateT RState Option β

/-- Failure: an uncaught Python exception aborts the run. -/
def pyRaise {β : Type} : GA β := fun _ => none

/-- `random.random()`: a uniform draw in `[0, 1)`.  `Int.fract` maps the
raw stream value into `[0, 1)`, the codomain guaranteed by Python. -/
def pyRandom : GA ℚ := fun s => some (Int.fract (s.gen.floats s.cnt), s.bump)

/-- `random.randint(lo, hi)`: an integer draw in `[lo, hi]` (both ends
inclusive, as in Python).  The raw stream value is reduced modulo the size
of the range. -/
def pyRandint (lo hi : Nat) : GA Nat := fun s =>
  some (lo + s.gen.ints s.cnt % (hi + 1 - lo), s.bump)

/-- Reorder `xs` by a list of positions.  If `sel` is not a permutation of
`[0, …, xs.length)` the draw is discarded and `xs` is returned unchanged,
so the result is always a permutation of `xs` (as `random.sample(xs,
len(xs))` guarantees). -/
def applySample {β : Type} (sel : List Nat) (xs : List β) : List β :=
  if List.Perm sel (List.range xs.length) then sel.filterMap (fun i => xs.get? i) else xs

/-- `random.sample(xs, len(xs))`: a uniformly random permutation of `xs`. -/
def pySample {β : Type} (xs : List β) : GA (List β) := fun s =>
  some (applySample (s.gen.perms s.cnt) xs, s.bump)

/-- Python's `list.insert(i, x)`: insert before position `i`, clamping
`i` to the length (an over-large index appends at the end). -/
def pyInsert {β : Type} (l : List β) (i : Nat) (x : β) : List β :=
  l.take i ++ x :: l.drop i

/-- The simultaneous swap `l[i], l[j] = l[j], l[i]`: both right-hand sides
are read from the original list, then assigned.  Out-of-range indices would
raise `IndexError` in Python; they never occur in the program's calls, and
the fallback branch returns the list unchanged. -/
def pySwap {β : Type} (l : List β) (i j : Nat) : List β :=
  match l.get? i, l.get? j with
  | some a, some b => (l.set i b).set j a
  | _, _ => l

/-! ## `gen_alg_LUstations.py`: the genetic-algorithm core -/

section Core

variable {α : Type} [DecidableEq α] (dist : α → α → Option ℚ)

/-- `CreateRoute(station_list, first_station)`: copy the list, remove the
starting station, randomise the rest (`random.sample`), put the start back
at position 0, and build a `Route` (whose constructor may raise).
`List.erase` models `list.remove`, which in the program is always applied
to a list containing `first_station`. -/
def CreateRoute (station_list : List α) (first_station : α) : GA (Route α) := do
  let path0 := station_list.erase first_station
  let path1 ← pySample path0
  let path := first_station :: path1
  match Route.make dist path with
  | some route => pure route
  | none => pyRaise

/-- `CreateInitialPopulation(pop_size, station_list, first_station)`:
`pop_size` independent random routes, in order of creation. -/
def CreateInitialPopulation (pop_size : Nat) (station_list : List α) (first_station : α) :
    GA (List (Route α)) :=
  match pop_size with
  | 0 => pure []
  | n + 1 => do
      let route ← CreateRoute dist station_list first_station
      let rest ← CreateInitialPopulation n station_list first_station
      pure (route :: rest)

/-- `SortRoutes(population)`: `sorted(population, key=time_taken)`.
Python's `sorted` is the stable sort by the key; `insertionSort` with the
non-strict comparison is that stable sort and reduces in the kernel. -/
def SortRoutes (population : List (Route α)) : List (Route α) :=
  List.insertionSort (fun a b => a.time_taken ≤ b.time_taken) population

/-- One row of the `parents` dataframe: the columns
`(Route, Fitness, Cum_Sum, CDF)` at positions `0, 1, 2, 3`. -/
abbrev PRow (α : Type) : Type := Route α × ℚ × ℚ × ℚ

/-- The `parents` dataframe of `SetParentsFitness`. -/
abbrev PTable (α : Type) : Type := List (PRow α)

/-- The CDF column (`parents.iat[row, 3]`). -/
def PRow.cdf {α : Type} (r : PRow α) : ℚ := r.2.2.2

/-- Row-wise construction of the dataframe columns: `Fitness` is the
reciprocal duration, `Cum_Sum` the running sum of fitnesses (pandas
`cumsum`), `CDF` is `Cum_Sum` divided by the total fitness. -/
def tableRows (total : ℚ) : ℚ → List (Route α) → PTable α
  | _, [] => []
  | acc, r :: rs =>
      let fit := 1 / r.time_taken
      (r, fit, acc + fit, (acc + fit) / total) :: tableRows total (acc + fit) rs

/-- `SetParentsFitness(sorted_routes)`: the dataframe with `Fitness`,
`Cum_Sum` and `CDF` columns. -/
def SetParentsFitness (sorted_routes : List (Route α)) : PTable α :=
  tableRows ((sorted_routes.map (fun r => 1 / r.time_taken)).sum) 0 sorted_routes

/-- The selection scan: the first row index whose CDF is `≥` the drawn
value (`pick <= parents.iat[parent, 3]`, inclusive).  `none` models the
scan falling through every row without appending a parent. -/
def scanCDF (parents : PTable α) (pick : ℚ) : Option Nat :=
  parents.findIdx? (fun row => pick ≤ row.cdf)

/-- The `while mother[-1] == father[-1]` redraw loop of `SelectParents`:
while the father is the same row as the mother, redraw `pick_father` and
rescan, leaving the father unchanged if the rescan falls through.  The
program compares Python object identity; distinct rows of a population
always hold distinct objects, so identity is row-index equality.  `fuel`
bounds the redraws; exhaustion models non-termination. -/
def dedupFather (parents : PTable α) (motherIdx : Nat) : Nat → Nat → GA Nat
  | fatherIdx, fuel =>
    if fatherIdx = motherIdx then
      match fuel with
      | 0 => pyRaise
      | fuel' + 1 => do
          let pick_father ← pyRandom
          dedupFather parents motherIdx ((scanCDF parents pick_father).getD fatherIdx) fuel'
    else pure fatherIdx

/-- One iteration of the mating loop of `SelectParents`: draw
`pick_mother` and `pick_father`, scan the rows once for each (the flags
`mother_selected` / `father_selected` make the interleaved scan equivalent
to two independent first-hit scans), and if both were selected run the
deduplication loop on the father.  A `none` component records that the
corresponding scan fell through and appended nothing. -/
def selectOne (parents : PTable α) (fuel : Nat) : GA (Option Nat × Option Nat) := do
  let pick_mother ← pyRandom
  let pick_father ← pyRandom
  match scanCDF parents pick_mother, scanCDF parents pick_father with
  | some mi, some fi => do
      let fi' ← dedupFather parents mi fi fuel
      pure (some mi, some fi')
  | mi, fi => pure (mi, fi)

/-- The mating loop of `SelectParents`, run `count` times, collecting the
appended mother and father row indices in order. -/
def selectLoop (parents : PTable α) (fuel : Nat) : Nat → GA (List Nat × List Nat)
  | 0 => pure ([], [])
  | count + 1 => do
      let (mo, fo) ← selectOne parents fuel
      let (mothers, fathers) ← selectLoop parents fuel count
      pure (mo.toList ++ mothers, fo.toList ++ fathers)

/-- `SelectParents(parents, elite_size)`: `parents.shape[0] - elite_size`
iterations of the mating loop.  The program returns the `Route` objects;
we return their row indices to model object identity (see `dedupFather`). -/
def SelectParents (parents : PTable α) (elite_size : Nat) (fuel : Nat) :
    GA (List Nat × List Nat) :=
  selectLoop parents fuel (parents.length - elite_size)

/-- The two `random.randint(1, n-1)` gene draws of `Procreate` / `Mutate`,
with the `while genes[0] == genes[1]` redraw of the second. -/
def redrawGene (hi g0 : Nat) : Nat → Nat → GA Nat
  | g1, fuel =>
    if g0 = g1 then
      match fuel with
      | 0 => pyRaise
      | fuel' + 1 => do
          let g ← pyRandint 1 hi
          redrawGene hi g0 g fuel'
    else pure g1

/-- Draw the pair `genes` for a path of length `n`: two draws from
`randint(1, n-1)`, the second redrawn until distinct from the first. -/
def drawGenes (n : Nat) (fuel : Nat) : GA (Nat × Nat) := do
  let g0 ← pyRandint 1 (n - 1)
  let g1 ← pyRandint 1 (n - 1)
  let g1' ← redrawGene (n - 1) g0 g1 fuel
  pure (g0, g1')

/-- The child construction of `Procreate` (lines 213–223): copy the
mother's path, `remove` every station of the father segment
`father.path[first_gene:last_gene]`, then `insert` each segment station at
`father.path.index(station)`, sequentially in segment order.
`List.erase` models `list.remove` (first occurrence; always present here
because both paths are permutations of the same set), `List.indexOf`
models `list.index`, and `pyInsert` models `list.insert`. -/
def crossoverChild (motherPath fatherPath : List α) (first_gene last_gene : Nat) : List α :=
  let segment := (fatherPath.drop first_gene).take (last_gene - first_gene)
  let child := segment.foldl (fun c gene => c.erase gene) motherPath
  segment.foldl (fun c gene => pyInsert c (fatherPath.indexOf gene) gene) child

/-- The mating loop of `Procreate`: for each index of the mothers list,
pair the mother with the father at the same index (a missing father would
raise `IndexError`), draw and deduplicate the two cut points, build the
child path, and construct the child `Route` (whose constructor may
raise).  Row indices are resolved in the table; the scans that produced
them guarantee they are in range. -/
def matingLoop (parents : PTable α) (fuel : Nat) :
    List Nat → List Nat → GA (List (Route α))
  | [], _ => pure []
  | _ :: _, [] => pyRaise
  | motherIdx :: mothers, fatherIdx :: fathers =>
    match parents.get? motherIdx, parents.get? fatherIdx with
    | some motherRow, some fatherRow => do
        let (g0, g1) ← drawGenes fatherRow.1.path.length fuel
        let first_gene := min g0 g1
        let last_gene := max g0 g1
        let childPath := crossoverChild motherRow.1.path fatherRow.1.path first_gene last_gene
        match Route.make dist childPath with
        | some child => do
            let rest ← matingLoop parents fuel mothers fathers
            pure (child :: rest)
        | none => pyRaise
    | _, _ => pyRaise

/-- `Procreate(parents, elite_size)`: the first `elite_size` rows carry
over verbatim (by reference), then one child per selected mother-father
pair is appended. -/
def Procreate (parents : PTable α) (elite_size : Nat) (fuel : Nat) : GA (List (Route α)) := do
  let elites := (parents.take elite_size).map (fun row => row.1)
  let (mothers, fathers) ← SelectParents parents elite_size fuel
  let children ← matingLoop dist parents fuel mothers fathers
  pure (elites ++ children)

/-- `Mutate(children, mutation_rate)`: for each route in order, draw
`mutate_roll`; if `mutate_roll <= mutation_rate`, draw and deduplicate two
swap positions in `[1, n-1]`, swap them on a copy of the path, and replace
the route (at the same list position) by a freshly constructed `Route`;
otherwise keep the route. -/
def Mutate (mutation_rate : ℚ) (fuel : Nat) : List (Route α) → GA (List (Route α))
  | [] => pure []
  | child :: children => do
      let mutate_roll ← pyRandom
      if mutate_roll ≤ mutation_rate then do
        let mutate_path := child.path
        let (g0, g1) ← drawGenes mutate_path.length fuel
        let newPath := pySwap mutate_path g0 g1
        match Route.make dist newPath with
        | some mutated => do
            let rest ← Mutate mutation_rate fuel children
            pure (mutated :: rest)
        | none => pyRaise
      else do
        let rest ← Mutate mutation_rate fuel children
        pure (child :: rest)

/-- `CreateNextGeneration(previous_generation, elite_size, mutation_rate)`:
fitness table, procreation, mutation, sort. -/
def CreateNextGeneration (previous_generation : List (Route α)) (elite_size : Nat)
    (mutation_rate : ℚ) (fuel : Nat) : GA (List (Route α)) := do
  let parents := SetParentsFitness previous_generation
  let children ← Procreate dist parents elite_size fuel
  let next_generation ← Mutate dist mutation_rate fuel children
  pure (SortRoutes next_generation)

/-- `np.mean` of a list of durations. -/
def meanQ (l : List ℚ) : ℚ := l.sum / l.length

/-- The square of `np.std` (population variance, `ddof = 0`).  `np.std`
itself is the real square root of this value, so two runs have identical
standard-deviation histories exactly when they have identical
variance histories. -/
def varQ (l : List ℚ) : ℚ := ((l.map (fun x => (x - meanQ l) ^ 2)).sum) / l.length

/-- The `for gen in range(n_generations)` loop of `GeneticAlgorithm`:
produce the next generation, record `population[0].time_taken` (an
`IndexError` on an empty population is failure) and the mean/variance of
the durations, and recurse.  Returns the recorded histories and the final
population. -/
def evolveLoop (elite_size : Nat) (mutation_rate : ℚ) (fuel : Nat) :
    Nat → List (Route α) → GA (List ℚ × List (ℚ × ℚ) × List (Route α))
  | 0, population => pure ([], [], population)
  | gens + 1, population => do
      let population' ← CreateNextGeneration dist population elite_size mutation_rate fuel
      match population'.get? 0 with
      | none => pyRaise
      | some best => do
          let ds := population'.map Route.time_taken
          let (bests, stats, final) ← evolveLoop elite_size mutation_rate fuel gens population'
          pure (best.time_taken :: bests, (meanQ ds, varQ ds) :: stats, final)

set_option linter.unusedVariables false in
/-- `GeneticAlgorithm(station_list, first_station, n_generations,
pop_size, elite_size, mutation_rate, random_seed)`.

`seedGen` models the Mersenne-Twister initialisation: the entropy stream
determined by a seed.  `s0` is the ambient process-global `random` state
at call time; the first statement `random.seed(random_seed)` replaces it,
which is why the result cannot depend on it.  Returns the best-duration
history, the mean/variance history (one entry for generation 0 and one
per evolved generation), and the final generation's fitness dataframe
(`final_gen_df`; its added `Duration` column is the image of the `Route`
column under `time_taken` and is omitted as derived). -/
def GeneticAlgorithm (station_list : List α) (first_station : α)
    (n_generations pop_size elite_size : Nat) (mutation_rate : ℚ) (random_seed : Nat)
    (seedGen : Nat → RandGen) (fuel : Nat) (s0 : RState) :
    Option (List ℚ × List (ℚ × ℚ) × PTable α) :=
  -- random.seed(random_seed): the ambient state s0 is discarded
  let s : RState := ⟨seedGen random_seed, 0⟩
  match (CreateInitialPopulation dist pop_size station_list first_station).run s with
  | none => none
  | some (population, s) =>
    let population := SortRoutes population
    match population.get? 0 with
    | none => none   -- population[0] raises IndexError on an empty population
    | some best0 =>
      let ds := population.map Route.time_taken
      match (evolveLoop dist elite_size mutation_rate fuel n_generations population).run s with
      | none => none
      | some ((bests, stats, finalPop), _) =>
        some (best0.time_taken :: bests, (meanQ ds, varQ ds) :: stats,
              SetParentsFitness finalPop)

end Core

/-! ## Concrete instances used by the claims -/

/-- Six abstract stations `A … F`, as in the crossover scenario of the
spec (§4.5) and the docstring of `Procreate`. -/
inductive St : Type
  | A | B | C | D | E | F
deriving DecidableEq, Repr

open St in
/-- The mother path of the crossover scenario. -/
def motherPathC1 : List St := [A, B, C, D, E, F]

open St in
/-- The father path of the crossover scenario. -/
def fatherPathC1 : List St := [A, F, B, E, D, C]

/-- Complete symmetric hollow duration table on the three stations
`A`, `B`, `C` (the spec's three-location scenario: `AB = 5`, `AC = 10`,
`BC = 3`). -/
def dist3 : St → St → Option ℚ
  | St.A, St.B => some 5
  | St.B, St.A => some 5
  | St.A, St.C => some 10
  | St.C, St.A => some 10
  | St.B, St.C => some 3
  | St.C, St.B => some 3
  | _, _ => none

/-- The three-station location set. -/
def stations3 : List St := [St.A, St.B, St.C]

/-- A concrete deterministic entropy source used by the witnesses: every
`random()` draw is `1/2`, every raw integer is `0`, every sample
selection is the identity (the empty list is not a permutation of a
non-empty index range, so `applySample` keeps the input order). -/
def genW : RandGen where
  floats := fun _ => 1 / 2
  ints := fun _ => 0
  perms := fun _ => []

/-! ## Specification predicates and concrete witness data -/

/-- Validity of a route: the path starts at the designated start location
and is a permutation of the full location set. -/
def ValidRoute {α : Type} (all : List α) (first : α) (r : Route α) : Prop :=
  r.path.head? = some first ∧ List.Perm r.path all

/-- Validity of a whole population. -/
def ValidPop {α : Type} (all : List α) (first : α) (pop : List (Route α)) : Prop :=
  ∀ r ∈ pop, ValidRoute all first r

/-- The route produced by every step of the concrete witness runs. -/
def routeABC : Route St := ⟨[St.A, St.B, St.C], 8⟩

/-- Pointwise effect of a full-rate mutation pass: same length, and
every output route's path is the corresponding input route's path with
two distinct non-start in-range positions swapped — in particular its
composition changed. -/
def SwapMutatedAll {α : Type} (cs out : List (Route α)) : Prop :=
  out.length = cs.length ∧
  ∀ i c o, cs.get? i = some c → out.get? i = some o →
    (∃ g0 g1, g0 ≠ g1 ∧ 1 ≤ g0 ∧ 1 ≤ g1 ∧ g0 ≤ c.path.length - 1 ∧
      g1 ≤ c.path.length - 1 ∧ o.path = pySwap c.path g0 g1) ∧ o.path ≠ c.path

/-- The second route of the witness populations: `A → C → B`, duration
`10 + 3 = 13`. -/
def routeACB : Route St := ⟨[St.A, St.C, St.B], 13⟩

/-- Witness fitness table over two routes (durations `8` and `13`). -/
def parents3 : PTable St := SetParentsFitness [routeABC, routeACB]

/-- A second deterministic entropy source: `random()` draws alternate
between `1/4` and `9/10`, raw integers enumerate `0, 1, 2, …`, samples
keep the input order. -/
def genW3 : RandGen where
  floats := fun n => if n % 2 = 0 then 1 / 4 else 9 / 10
  ints := fun n => n
  perms := fun _ => []

/-- The witness fitness table, with its columns evaluated. -/
def tbl3 : PTable St :=
  [(routeABC, 1/8, 1/8, 13/21), (routeACB, 1/13, 21/104, 1)]

/-- A route is freshly constructed: running the `Route` constructor on
its own path reproduces it, i.e. its stored duration is exactly the one
the constructor computes from the path. -/
def FreshlyMade {α : Type} (dist : α → α → Option ℚ) (r : Route α) : Prop :=
  Route.make dist r.path = some r

/-- Shape of `Procreate`'s output: the input rows' own `Route` values
(not copies) carried over as elites, followed only by freshly
constructed children. -/
def CrossoverFresh {α : Type} (dist : α → α → Option ℚ) (parents : PTable α)
    (elite_size : Nat) (children : List (Route α)) : Prop :=
  ∃ kids, children = (parents.take elite_size).map (fun row => row.1) ++ kids ∧
    ∀ k ∈ kids, FreshlyMade dist k

/-- Pointwise shape of `Mutate`'s output: each position holds either the
very input candidate (untouched, same value) or a freshly constructed
candidate. -/
def MutateFresh {α : Type} (dist : α → α → Option ℚ) (cs out : List (Route α)) : Prop :=
  out.length = cs.length ∧
  ∀ i c o, cs.get? i = some c → out.get? i = some o → o = c ∨ FreshlyMade dist o

/-- The scan finds a row for every draw in `[0, 1)`. -/
def ScanTotal {α : Type} (tbl : PTable α) : Prop :=
  ∀ u : ℚ, 0 ≤ u → u < 1 → (scanCDF tbl u).isSome

/-- Every successful iteration of the mating-selection loop appends
exactly one mother and one father (no fall-through). -/
def SelectOneTotal {α : Type} (tbl : PTable α) : Prop :=
  ∀ (fuel : Nat) (s : RState) (p : Option Nat × Option Nat) (s' : RState),
    (selectOne tbl fuel).run s = some (p, s') → p.1.isSome ∧ p.2.isSome

/-- Row `i` is selected by the inclusive first-hit rule for some uniform
draw: the first row in ranked order whose CDF is `≥` the draw. -/
def FirstHit {α : Type} (tbl : PTable α) (i : Nat) : Prop :=
  ∃ u : ℚ, 0 ≤ u ∧ u < 1 ∧ scanCDF tbl u = some i

/-- The result of `SelectParents`: one (mother, father) pair per
iteration, each parent the first row whose CDF is `≥` its uniform draw,
and the father a different row from the mother. -/
def PairsSelected {α : Type} (tbl : PTable α) (count : Nat) (ms fs : List Nat) : Prop :=
  ms.length = count ∧ fs.length = count ∧
  ∀ i mi fi, ms.get? i = some mi → fs.get? i = some fi →
    mi ≠ fi ∧ FirstHit tbl mi ∧ FirstHit tbl fi

/-- Concrete witness for C6: a three-station path with durations
`A→B = 5`, `B→C = 3`; the stored duration is `8` and the independent
recomputation returns `8`. -/
def distW : St → St → Option ℚ
  | St.A, St.B => some 5
  | St.B, St.C => some 3
  | _, _ => none

/-! ## Helper lemmas: duration round-trip -/

theorem recomputedDuration_cons₂ {α : Type} (dist : α → α → Option ℚ) (a b : α)
    (rest : List α) :
    recomputedDuration dist (a :: b :: rest) =
      match dist a b, recomputedDuration dist (b :: rest) with
      | some d, some s => some (d + s)
      | _, _ => none := by
  simp only [recomputedDuration, List.tail_cons, List.zip_cons_cons, List.mapM_cons]
  cases dist a b with
  | none => simp
  | some d =>
    cases h : (((b :: rest).zip rest).mapM fun ab => dist ab.1 ab.2) with
    | none => simp [h]
    | some l => simp [h, List.sum_cons]

theorem routeDuration_eq_recomputed {α : Type} (dist : α → α → Option ℚ) (p : List α) :
    routeDuration dist p = recomputedDuration dist p := by
  induction p with
  | nil => rfl
  | cons a t ih =>
    cases t with
    | nil => rfl
    | cons b rest =>
      rw [recomputedDuration_cons₂]
      simp only [routeDuration, ih]

theorem routeDuration_eq_none_iff {α : Type} (dist : α → α → Option ℚ) (p : List α) :
    routeDuration dist p = none ↔ ∃ pair ∈ p.zip p.tail, dist pair.1 pair.2 = none := by
  induction p with
  | nil => simp [routeDuration]
  | cons a t ih =>
    cases t with
    | nil => simp [routeDuration]
    | cons b rest =>
      rw [List.tail_cons, List.zip_cons_cons]
      simp only [List.mem_cons, List.tail_cons] at *
      constructor
      · intro h
        simp only [routeDuration] at h
        cases hd : dist a b with
        | none => exact ⟨(a, b), Or.inl rfl, hd⟩
        | some d =>
          cases hr : routeDuration dist (b :: rest) with
          | none =>
            obtain ⟨pair, hmem, hpair⟩ := ih.mp hr
            exact ⟨pair, Or.inr hmem, hpair⟩
          | some s => rw [hd, hr] at h; exact absurd h (by simp)
      · rintro ⟨pair, hmem | hmem, hpair⟩
        · subst hmem
          simp only [routeDuration, hpair]
        · have : routeDuration dist (b :: rest) = none := ih.mpr ⟨pair, hmem, hpair⟩
          simp only [routeDuration, this]
          cases dist a b <;> rfl

/-! ## Helper lemmas: list primitives -/

theorem filterMap_get?_range {β : Type} (l : List β) :
    (List.range l.length).filterMap (fun i => l.get? i) = l := by
  induction l with
  | nil => rfl
  | cons a t ih =>
    rw [List.length_cons, List.range_succ_eq_map]
    simp only [List.filterMap_cons, List.get?_cons_zero, List.filterMap_map]
    rw [show ((fun i => (a :: t).get? i) ∘ Nat.succ) = (fun i => t.get? i) from rfl, ih]

theorem applySample_perm {β : Type} (sel : List Nat) (xs : List β) :
    List.Perm (applySample sel xs) xs := by
  unfold applySample
  split
  · rename_i h
    have h2 := h.filterMap (fun i => xs.get? i)
    rwa [filterMap_get?_range] at h2
  · exact List.Perm.refl xs

theorem applySample_nil_cons {β : Type} (b : β) (l : List β) :
    applySample [] (b :: l) = b :: l := by
  rw [applySample, if_neg]
  intro h
  have hlen := h.length_eq
  simp at hlen

theorem pyInsert_perm {β : Type} (l : List β) (i : Nat) (x : β) :
    List.Perm (pyInsert l i x) (x :: l) := by
  have h := @List.perm_middle β x (l.take i) (l.drop i)
  rwa [List.take_append_drop] at h

theorem pyInsert_cons_of_pos {β : Type} (a : β) (t : List β) (i : Nat) (x : β) (h : 1 ≤ i) :
    pyInsert (a :: t) i x = a :: pyInsert t (i - 1) x := by
  cases i with
  | zero => omega
  | succ k => simp [pyInsert]

theorem cons_set_perm {β : Type} (t : List β) (k : Nat) (b x : β) (h : t.get? k = some b) :
    List.Perm (b :: t.set k x) (x :: t) := by
  induction t generalizing k with
  | nil => simp at h
  | cons y t' ih =>
    cases k with
    | zero =>
      rw [List.get?_cons_zero, Option.some_inj] at h
      subst h
      simpa using List.Perm.swap x y t'
    | succ m =>
      rw [List.get?_cons_succ] at h
      rw [List.set_cons_succ]
      have h1 : List.Perm (b :: y :: t'.set m x) (y :: b :: t'.set m x) :=
        List.Perm.swap y b (t'.set m x)
      exact h1.trans ((List.Perm.cons y (ih m h)).trans (List.Perm.swap x y t'))

theorem set_set_swap_perm {β : Type} (l : List β) (i j : Nat) (a b : β)
    (hi : l.get? i = some a) (hj : l.get? j = some b) :
    List.Perm ((l.set i b).set j a) l := by
  induction l generalizing i j with
  | nil => simp at hi
  | cons x t ih =>
    cases i with
    | zero =>
      rw [List.get?_cons_zero, Option.some_inj] at hi
      subst hi
      cases j with
      | zero =>
        rw [List.get?_cons_zero, Option.some_inj] at hj
        subst hj
        simp
      | succ m =>
        rw [List.get?_cons_succ] at hj
        rw [List.set_cons_zero, List.set_cons_succ]
        exact cons_set_perm t m b x hj
    | succ k =>
      rw [List.get?_cons_succ] at hi
      cases j with
      | zero =>
        rw [List.get?_cons_zero, Option.some_inj] at hj
        subst hj
        rw [List.set_cons_succ, List.set_cons_zero]
        exact cons_set_perm t k a x hi
      | succ m =>
        rw [List.get?_cons_succ] at hj
        rw [List.set_cons_succ, List.set_cons_succ]
        exact List.Perm.cons x (ih k m hi hj)

theorem pySwap_perm {β : Type} (l : List β) (i j : Nat) :
    List.Perm (pySwap l i j) l := by
  unfold pySwap
  cases hi : l.get? i with
  | none => exact List.Perm.refl l
  | some a =>
    cases hj : l.get? j with
    | none => exact List.Perm.refl l
    | some b => exact set_set_swap_perm l i j a b hi hj

theorem get?_zero_set_of_pos {β : Type} (l : List β) (i : Nat) (x : β) (h : 1 ≤ i) :
    (l.set i x).get? 0 = l.get? 0 := by
  cases l with
  | nil => simp
  | cons a t =>
    cases i with
    | zero => omega
    | succ k => simp

theorem pySwap_head? {β : Type} (l : List β) (i j : Nat) (hi : 1 ≤ i) (hj : 1 ≤ j) :
    (pySwap l i j).head? = l.head? := by
  unfold pySwap
  cases l.get? i with
  | none => rfl
  | some a =>
    cases l.get? j with
    | none => rfl
    | some b =>
      rw [List.head?_eq_getElem?, List.head?_eq_getElem?, ← List.get?_eq_getElem?,
        ← List.get?_eq_getElem?, get?_zero_set_of_pos _ _ _ hj, get?_zero_set_of_pos _ _ _ hi]

/-! ## Helper lemmas: the crossover folds -/

theorem eraseFold_perm {α : Type} [DecidableEq α] :
    ∀ (seg mp : List α), seg.Nodup → (∀ g ∈ seg, g ∈ mp) →
      List.Perm (seg ++ seg.foldl (fun c gene => c.erase gene) mp) mp := by
  intro seg
  induction seg with
  | nil => intro mp _ _; simp
  | cons g gs ih =>
    intro mp hnd hmem
    have hg : g ∈ mp := hmem g (List.mem_cons_self g gs)
    have hnd' : gs.Nodup := (List.nodup_cons.mp hnd).2
    have hgnotin : g ∉ gs := (List.nodup_cons.mp hnd).1
    have hmem' : ∀ x ∈ gs, x ∈ mp.erase g := by
      intro x hx
      refine (List.mem_erase_of_ne (fun hxg => hgnotin ?_)).mpr (hmem x (List.mem_cons_of_mem g hx))
      rw [← hxg]
      exact hx
    have ihh := ih (mp.erase g) hnd' hmem'
    have step : (g :: gs).foldl (fun c gene => c.erase gene) mp =
        gs.foldl (fun c gene => c.erase gene) (mp.erase g) := by
      simp [List.foldl_cons]
    rw [step, List.cons_append]
    have h1 : List.Perm (g :: (gs ++ gs.foldl (fun c gene => c.erase gene) (mp.erase g)))
        (g :: mp.erase g) := List.Perm.cons g ihh
    exact h1.trans (List.perm_cons_erase hg).symm

theorem insertFold_perm {α : Type} (f : α → Nat) :
    ∀ (seg c : List α),
      List.Perm (seg.foldl (fun acc gene => pyInsert acc (f gene) gene) c) (seg ++ c) := by
  intro seg
  induction seg with
  | nil => intro c; simp
  | cons g gs ih =>
    intro c
    rw [List.foldl_cons, List.cons_append]
    have h1 := ih (pyInsert c (f g) g)
    have h2 : List.Perm (gs ++ pyInsert c (f g) g) (gs ++ g :: c) :=
      List.Perm.append_left gs (pyInsert_perm c (f g) g)
    exact (h1.trans h2).trans List.perm_middle

theorem eraseFold_cons_of_ne {α : Type} [DecidableEq α] :
    ∀ (seg : List α) (a : α) (t : List α), (∀ g ∈ seg, g ≠ a) →
      seg.foldl (fun c gene => c.erase gene) (a :: t) =
        a :: seg.foldl (fun c gene => c.erase gene) t := by
  intro seg
  induction seg with
  | nil => intro a t _; rfl
  | cons g gs ih =>
    intro a t hne
    have hga : g ≠ a := hne g (List.mem_cons_self g gs)
    rw [List.foldl_cons, List.foldl_cons, List.erase_cons_tail (by simp [Ne.symm hga])]
    exact ih a (t.erase g) (fun x hx => hne x (List.mem_cons_of_mem g hx))

theorem insertFold_head {α : Type} (f : α → Nat) :
    ∀ (seg : List α) (a : α) (t : List α), (∀ g ∈ seg, 1 ≤ f g) →
      (seg.foldl (fun acc gene => pyInsert acc (f gene) gene) (a :: t)).head? = some a := by
  intro seg
  induction seg with
  | nil => intro a t _; rfl
  | cons g gs ih =>
    intro a t hpos
    rw [List.foldl_cons, pyInsert_cons_of_pos a t (f g) g (hpos g (List.mem_cons_self g gs))]
    exact ih a (pyInsert t (f g - 1) g) (fun x hx => hpos x (List.mem_cons_of_mem g hx))

/-- Elements of the father segment `father.path[first_gene:last_gene]`. -/
theorem segment_subset {α : Type} (fatherPath : List α) (first_gene last_gene : Nat) :
    ∀ g ∈ (fatherPath.drop first_gene).take (last_gene - first_gene), g ∈ fatherPath := by
  intro g hg
  exact List.mem_of_mem_drop (List.mem_of_mem_take hg)

theorem segment_sublist {α : Type} (fatherPath : List α) (first_gene last_gene : Nat) :
    List.Sublist ((fatherPath.drop first_gene).take (last_gene - first_gene)) fatherPath :=
  ((fatherPath.drop first_gene).take_sublist _).trans (fatherPath.drop_sublist first_gene)

/-- The crossover child is a permutation of the location set: removing the
father segment from the mother's path and re-inserting each segment
element (anywhere) preserves the multiset of stations. -/
theorem crossoverChild_perm {α : Type} [DecidableEq α] (all motherPath fatherPath : List α)
    (first_gene last_gene : Nat) (hnd : all.Nodup)
    (hm : List.Perm motherPath all) (hf : List.Perm fatherPath all) :
    List.Perm (crossoverChild motherPath fatherPath first_gene last_gene) all := by
  unfold crossoverChild
  set seg := (fatherPath.drop first_gene).take (last_gene - first_gene) with hseg
  have hfnd : fatherPath.Nodup := hf.nodup_iff.mpr hnd
  have hsegnd : seg.Nodup := (segment_sublist fatherPath first_gene last_gene).nodup hfnd
  have hsegmem : ∀ g ∈ seg, g ∈ motherPath := by
    intro g hg
    exact hm.mem_iff.mpr (hf.mem_iff.mp (segment_subset fatherPath first_gene last_gene g hg))
  have h1 := insertFold_perm (fun gene => fatherPath.indexOf gene) seg
    (seg.foldl (fun c gene => c.erase gene) motherPath)
  have h2 := eraseFold_perm seg motherPath hsegnd hsegmem
  exact (h1.trans h2).trans hm

/-- The crossover child keeps the mother's first station: no segment
element equals the start (the segment sits at father positions `≥ 1` and
the father's path repeats no station), every removal therefore acts on
the tail, and every insertion index `father.path.index(gene)` is `≥ 1`. -/
theorem crossoverChild_head {α : Type} [DecidableEq α] (first : α)
    (motherRest fatherRest : List α) (fatherPath : List α) (first_gene last_gene : Nat)
    (hfa : fatherPath = first :: fatherRest)
    (hfnd : fatherPath.Nodup) (hfg : 1 ≤ first_gene) :
    (crossoverChild (first :: motherRest) fatherPath first_gene last_gene).head? =
      some first := by
  unfold crossoverChild
  set seg := (fatherPath.drop first_gene).take (last_gene - first_gene) with hseg
  have hsegne : ∀ g ∈ seg, g ≠ first := by
    intro g hg hgf
    have hmem : g ∈ fatherPath.drop first_gene := List.mem_of_mem_take hg
    have hmem2 : g ∈ fatherRest := by
      obtain ⟨k, rfl⟩ := Nat.exists_eq_add_of_le hfg
      rw [hfa] at hmem
      rw [Nat.add_comm 1 k, List.drop_succ_cons] at hmem
      exact List.mem_of_mem_drop hmem
    rw [hfa] at hfnd
    exact (List.nodup_cons.mp hfnd).1 (hgf ▸ hmem2)
  have hidx : ∀ g ∈ seg, 1 ≤ fatherPath.indexOf g := by
    intro g hg
    rw [hfa, List.indexOf_cons]
    have hne : (first == g) = false := beq_false_of_ne (Ne.symm (hsegne g hg))
    simp [hne]
  show (seg.foldl (fun c gene => pyInsert c (fatherPath.indexOf gene) gene)
      (seg.foldl (fun c gene => c.erase gene) (first :: motherRest))).head? = some first
  rw [eraseFold_cons_of_ne seg first motherRest hsegne]
  exact insertFold_head (fun gene => fatherPath.indexOf gene) seg first _ hidx

/-! ## Helper lemmas: running the embedded program -/

theorem GA_run_bind {β γ : Type} (x : GA β) (f : β → GA γ) (s : RState) :
    (x >>= f).run s = (x.run s).bind (fun p => (f p.1).run p.2) := rfl

theorem GA_run_pure {β : Type} (b : β) (s : RState) :
    (pure b : GA β).run s = some (b, s) := rfl

theorem run_pyRaise {β : Type} (s : RState) : (pyRaise : GA β).run s = none := rfl

theorem run_pyRandom (s : RState) :
    pyRandom.run s = some (Int.fract (s.gen.floats s.cnt), s.bump) := rfl

theorem run_pyRandint (lo hi : Nat) (s : RState) :
    (pyRandint lo hi).run s = some (lo + s.gen.ints s.cnt % (hi + 1 - lo), s.bump) := rfl

theorem run_pySample {β : Type} (xs : List β) (s : RState) :
    (pySample xs).run s = some (applySample (s.gen.perms s.cnt) xs, s.bump) := rfl

/-- The value of a `randint(lo, hi)` draw is at least `lo`. -/
theorem pyRandint_lower (lo hi k : Nat) : lo ≤ lo + k % (hi + 1 - lo) := Nat.le_add_right lo _

/-- The value of a `randint(lo, hi)` draw is at most `hi` (when the range
is non-empty). -/
theorem pyRandint_upper (lo hi k : Nat) (h : lo ≤ hi) : lo + k % (hi + 1 - lo) ≤ hi := by
  have hpos : 0 < hi + 1 - lo := by omega
  have := Nat.mod_lt k hpos
  omega

theorem Route.make_path {α : Type} {dist : α → α → Option ℚ} {p : List α} {r : Route α}
    (h : Route.make dist p = some r) : r.path = p := by
  simp only [Route.make, Option.map_eq_some'] at h
  obtain ⟨d, _, rfl⟩ := h
  rfl

section CoreLemmas

variable {α : Type} [DecidableEq α] {dist : α → α → Option ℚ}

/-- A successfully created random route is valid. -/
theorem CreateRoute_valid {station_list : List α} {first : α} {s s' : RState} {r : Route α}
    (hmem : first ∈ station_list)
    (h : (CreateRoute dist station_list first).run s = some (r, s')) :
    ValidRoute station_list first r := by
  unfold CreateRoute at h
  rw [GA_run_bind, run_pySample, Option.some_bind] at h
  dsimp only at h
  set path1 := applySample (s.gen.perms s.cnt) (station_list.erase first) with hpath1
  cases hmk : Route.make dist (first :: path1) with
  | none => rw [hmk, run_pyRaise] at h; exact absurd h (by simp)
  | some route =>
    rw [hmk, GA_run_pure, Option.some_inj, Prod.mk.injEq] at h
    obtain ⟨rfl, rfl⟩ := h
    have hpath := Route.make_path hmk
    constructor
    · rw [hpath]; rfl
    · rw [hpath]
      have h1 : List.Perm path1 (station_list.erase first) := applySample_perm _ _
      exact (List.Perm.cons first h1).trans (List.perm_cons_erase hmem).symm

/-- Every route in a successfully created initial population is valid. -/
theorem CreateInitialPopulation_valid {station_list : List α} {first : α} :
    ∀ (pop_size : Nat) (s s' : RState) (pop : List (Route α)),
      first ∈ station_list →
      (CreateInitialPopulation dist pop_size station_list first).run s = some (pop, s') →
      ValidPop station_list first pop := by
  intro pop_size
  induction pop_size with
  | zero =>
    intro s s' pop _ h
    rw [CreateInitialPopulation, GA_run_pure, Option.some_inj, Prod.mk.injEq] at h
    obtain ⟨rfl, rfl⟩ := h
    intro r hr
    exact absurd hr (List.not_mem_nil r)
  | succ n ih =>
    intro s s' pop hmem h
    rw [CreateInitialPopulation, GA_run_bind] at h
    cases h1 : (CreateRoute dist station_list first).run s with
    | none => rw [h1] at h; exact absurd h (by simp)
    | some p1 =>
      obtain ⟨r1, s1⟩ := p1
      rw [h1, Option.some_bind, GA_run_bind] at h
      dsimp only at h
      cases h2 : (CreateInitialPopulation dist n station_list first).run s1 with
      | none => rw [h2] at h; exact absurd h (by simp)
      | some p2 =>
        obtain ⟨rest, s2⟩ := p2
        rw [h2, Option.some_bind, GA_run_pure, Option.some_inj, Prod.mk.injEq] at h
        dsimp only at h
        obtain ⟨rfl, rfl⟩ := h
        intro r hr
        rcases List.mem_cons.mp hr with rfl | hr2
        · exact CreateRoute_valid hmem h1
        · exact ih s1 s2 rest hmem h2 r hr2

omit [DecidableEq α] in
/-- Sorting preserves membership, hence validity. -/
theorem SortRoutes_valid {all : List α} {first : α} {pop : List (Route α)}
    (h : ValidPop all first pop) : ValidPop all first (SortRoutes pop) := by
  intro r hr
  exact h r ((List.perm_insertionSort _ pop).mem_iff.mp hr)

omit [DecidableEq α] in
/-- The `Route` column of the fitness dataframe is the input population. -/
theorem tableRows_map_fst (total : ℚ) :
    ∀ (acc : ℚ) (rs : List (Route α)), (tableRows total acc rs).map (fun row => row.1) = rs := by
  intro acc rs
  induction rs generalizing acc with
  | nil => rfl
  | cons r rest ih => simp [tableRows, ih]

omit [DecidableEq α] in
theorem SetParentsFitness_map_fst (rs : List (Route α)) :
    (SetParentsFitness rs).map (fun row => row.1) = rs :=
  tableRows_map_fst _ _ rs

omit [DecidableEq α] in
/-- A row of the fitness dataframe holds a route of the input population. -/
theorem mem_SetParentsFitness {rs : List (Route α)} {row : PRow α}
    (h : row ∈ SetParentsFitness rs) : row.1 ∈ rs := by
  rw [← SetParentsFitness_map_fst rs]
  exact List.mem_map_of_mem _ h

/-- Result of the gene-redraw loop: distinct from the first gene, and
within the draw bounds if the initial value was. -/
theorem redrawGene_spec {hi g0 : Nat} :
    ∀ (fuel g1 : Nat) (s : RState) (v : Nat) (s' : RState),
      1 ≤ g1 → (1 ≤ hi → g1 ≤ hi) →
      (redrawGene hi g0 g1 fuel).run s = some (v, s') →
      g0 ≠ v ∧ 1 ≤ v ∧ (1 ≤ hi → v ≤ hi) := by
  intro fuel
  induction fuel with
  | zero =>
    intro g1 s v s' hg1 hg1hi h
    rw [redrawGene] at h
    split at h
    · exact absurd h (by simp [run_pyRaise])
    · rename_i hne
      rw [GA_run_pure, Option.some_inj, Prod.mk.injEq] at h
      obtain ⟨rfl, rfl⟩ := h
      exact ⟨hne, hg1, hg1hi⟩
  | succ f ih =>
    intro g1 s v s' hg1 hg1hi h
    rw [redrawGene] at h
    split at h
    · rw [GA_run_bind, run_pyRandint, Option.some_bind] at h
      dsimp only at h
      refine ih _ _ _ _ (pyRandint_lower 1 hi _) (fun hhi => pyRandint_upper 1 hi _ hhi) h
    · rename_i hne
      rw [GA_run_pure, Option.some_inj, Prod.mk.injEq] at h
      obtain ⟨rfl, rfl⟩ := h
      exact ⟨hne, hg1, hg1hi⟩

/-- The two spliced genes: both at least `1`, at most `n - 1` when the
range is non-empty, and distinct. -/
theorem drawGenes_spec {n fuel : Nat} {s : RState} {g0 g1 : Nat} {s' : RState}
    (h : (drawGenes n fuel).run s = some ((g0, g1), s')) :
    g0 ≠ g1 ∧ 1 ≤ g0 ∧ 1 ≤ g1 ∧ (1 ≤ n - 1 → g0 ≤ n - 1 ∧ g1 ≤ n - 1) := by
  unfold drawGenes at h
  rw [GA_run_bind, run_pyRandint, Option.some_bind] at h
  dsimp only at h
  rw [GA_run_bind, run_pyRandint, Option.some_bind] at h
  dsimp only at h
  rw [GA_run_bind] at h
  cases hr : (redrawGene (n - 1) (1 + s.gen.ints s.cnt % (n - 1 + 1 - 1))
      (1 + s.bump.gen.ints s.bump.cnt % (n - 1 + 1 - 1)) fuel).run s.bump.bump with
  | none => rw [hr] at h; exact absurd h (by simp)
  | some pv =>
    obtain ⟨v, sv⟩ := pv
    rw [hr, Option.some_bind, GA_run_pure, Option.some_inj, Prod.mk.injEq] at h
    dsimp only at h
    obtain ⟨hpair, rfl⟩ := h
    rw [Prod.mk.injEq] at hpair
    obtain ⟨rfl, rfl⟩ := hpair
    have hspec := redrawGene_spec fuel _ s.bump.bump v sv
      (pyRandint_lower 1 (n - 1) _) (fun hhi => pyRandint_upper 1 (n - 1) _ hhi) hr
    refine ⟨fun he => hspec.1 he, pyRandint_lower 1 (n - 1) _, hspec.2.1, fun hhi => ?_⟩
    exact ⟨pyRandint_upper 1 (n - 1) _ hhi, hspec.2.2 hhi⟩

omit [DecidableEq α] in
/-- A valid route's path is the start followed by a tail. -/
theorem ValidRoute.exists_cons {all : List α} {first : α} {r : Route α}
    (h : ValidRoute all first r) : ∃ t, r.path = first :: t := by
  obtain ⟨hhead, _⟩ := h
  cases hp : r.path with
  | nil => rw [hp] at hhead; exact absurd hhead (by simp)
  | cons x t =>
    rw [hp, List.head?_cons, Option.some_inj] at hhead
    exact ⟨t, by rw [hhead]⟩

/-- Every child produced by the mating loop is valid. -/
theorem matingLoop_valid {all : List α} {first : α} {parents : PTable α} {fuel : Nat}
    (hnd : all.Nodup) (hrows : ∀ row ∈ parents, ValidRoute all first row.1) :
    ∀ (mothers fathers : List Nat) (s s' : RState) (out : List (Route α)),
      (matingLoop dist parents fuel mothers fathers).run s = some (out, s') →
      ValidPop all first out := by
  intro mothers
  induction mothers with
  | nil =>
    intro fathers s s' out h
    rw [matingLoop, GA_run_pure, Option.some_inj, Prod.mk.injEq] at h
    obtain ⟨rfl, rfl⟩ := h
    intro r hr
    exact absurd hr (List.not_mem_nil r)
  | cons mi ms ih =>
    intro fathers s s' out h
    cases fathers with
    | nil => rw [matingLoop] at h; exact absurd h (by simp [run_pyRaise])
    | cons fi fs =>
      rw [matingLoop] at h
      cases hmrow : parents.get? mi with
      | none => rw [hmrow] at h; exact absurd h (by simp [run_pyRaise])
      | some motherRow =>
        cases hfrow : parents.get? fi with
        | none => rw [hmrow, hfrow] at h; exact absurd h (by simp [run_pyRaise])
        | some fatherRow =>
          rw [hmrow, hfrow, GA_run_bind] at h
          cases hg : (drawGenes fatherRow.1.path.length fuel).run s with
          | none => rw [hg] at h; exact absurd h (by simp)
          | some pg =>
            obtain ⟨⟨g0, g1⟩, sg⟩ := pg
            rw [hg, Option.some_bind] at h
            dsimp only at h
            have hmvalid := hrows motherRow (List.get?_mem hmrow)
            have hfvalid := hrows fatherRow (List.get?_mem hfrow)
            obtain ⟨mrest, hmp⟩ := hmvalid.exists_cons
            obtain ⟨frest, hfp⟩ := hfvalid.exists_cons
            have hgenes := drawGenes_spec hg
            cases hmk : Route.make dist (crossoverChild motherRow.1.path fatherRow.1.path
                (min g0 g1) (max g0 g1)) with
            | none => rw [hmk] at h; exact absurd h (by simp [run_pyRaise])
            | some child =>
              rw [hmk, GA_run_bind] at h
              cases hrest : (matingLoop dist parents fuel ms fs).run sg with
              | none => rw [hrest] at h; exact absurd h (by simp)
              | some prest =>
                obtain ⟨rest, srest⟩ := prest
                rw [hrest, Option.some_bind, GA_run_pure, Option.some_inj,
                  Prod.mk.injEq] at h
                dsimp only at h
                obtain ⟨rfl, rfl⟩ := h
                intro r hr
                rcases List.mem_cons.mp hr with rfl | hr2
                · have hpath := Route.make_path hmk
                  have hfnd : fatherRow.1.path.Nodup := hfvalid.2.nodup_iff.mpr hnd
                  constructor
                  · rw [hpath, hmp]
                    exact crossoverChild_head first mrest frest fatherRow.1.path
                      (min g0 g1) (max g0 g1) hfp hfnd
                      (le_min hgenes.2.1 hgenes.2.2.1)
                  · rw [hpath]
                    exact crossoverChild_perm all motherRow.1.path fatherRow.1.path
                      (min g0 g1) (max g0 g1) hnd hmvalid.2 hfvalid.2
                · exact ih fs sg srest rest hrest r hr2

/-- Every route of a successful `Procreate` output is valid: the elites
are rows of the table and the bred children are valid by
`matingLoop_valid`. -/
theorem Procreate_valid {all : List α} {first : α} {parents : PTable α}
    {elite_size fuel : Nat} {s s' : RState} {out : List (Route α)}
    (hnd : all.Nodup) (hrows : ∀ row ∈ parents, ValidRoute all first row.1)
    (h : (Procreate dist parents elite_size fuel).run s = some (out, s')) :
    ValidPop all first out := by
  unfold Procreate at h
  rw [GA_run_bind] at h
  cases hsel : (SelectParents parents elite_size fuel).run s with
  | none => rw [hsel] at h; exact absurd h (by simp)
  | some psel =>
    obtain ⟨⟨mothers, fathers⟩, ssel⟩ := psel
    rw [hsel, Option.some_bind] at h
    dsimp only at h
    rw [GA_run_bind] at h
    cases hml : (matingLoop dist parents fuel mothers fathers).run ssel with
    | none => rw [hml] at h; exact absurd h (by simp)
    | some pml =>
      obtain ⟨children, sml⟩ := pml
      rw [hml, Option.some_bind, GA_run_pure, Option.some_inj, Prod.mk.injEq] at h
      dsimp only at h
      obtain ⟨rfl, rfl⟩ := h
      intro r hr
      rcases List.mem_append.mp hr with hel | hch
      · obtain ⟨row, hrow, rfl⟩ := List.mem_map.mp hel
        exact hrows row (List.mem_of_mem_take hrow)
      · exact matingLoop_valid hnd hrows mothers fathers ssel sml children hml r hch

omit [DecidableEq α] in
/-- Mutation preserves validity of every route: a swap of two positions
`≥ 1` keeps the head and permutes the path. -/
theorem Mutate_valid {all : List α} {first : α} {mutation_rate : ℚ} {fuel : Nat} :
    ∀ (cs : List (Route α)) (s s' : RState) (out : List (Route α)),
      ValidPop all first cs →
      (Mutate dist mutation_rate fuel cs).run s = some (out, s') →
      ValidPop all first out := by
  intro cs
  induction cs with
  | nil =>
    intro s s' out _ h
    rw [Mutate, GA_run_pure, Option.some_inj, Prod.mk.injEq] at h
    obtain ⟨rfl, rfl⟩ := h
    intro r hr
    exact absurd hr (List.not_mem_nil r)
  | cons c cs ih =>
    intro s s' out hvalid h
    rw [Mutate, GA_run_bind, run_pyRandom, Option.some_bind] at h
    dsimp only at h
    have hcvalid := hvalid c (List.mem_cons_self c cs)
    have hcsvalid : ValidPop all first cs := fun r hr => hvalid r (List.mem_cons_of_mem c hr)
    split at h
    · rw [GA_run_bind] at h
      cases hg : (drawGenes c.path.length fuel).run s.bump with
      | none => rw [hg] at h; exact absurd h (by simp)
      | some pg =>
        obtain ⟨⟨g0, g1⟩, sg⟩ := pg
        rw [hg, Option.some_bind] at h
        dsimp only at h
        have hgenes := drawGenes_spec hg
        cases hmk : Route.make dist (pySwap c.path g0 g1) with
        | none => rw [hmk] at h; exact absurd h (by simp [run_pyRaise])
        | some mutated =>
          rw [hmk, GA_run_bind] at h
          cases hrest : (Mutate dist mutation_rate fuel cs).run sg with
          | none => rw [hrest] at h; exact absurd h (by simp)
          | some prest =>
            obtain ⟨rest, srest⟩ := prest
            rw [hrest, Option.some_bind, GA_run_pure, Option.some_inj, Prod.mk.injEq] at h
            dsimp only at h
            obtain ⟨rfl, rfl⟩ := h
            intro r hr
            rcases List.mem_cons.mp hr with rfl | hr2
            · have hpath := Route.make_path hmk
              constructor
              · rw [hpath, pySwap_head? c.path g0 g1 hgenes.2.1 hgenes.2.2.1]
                exact hcvalid.1
              · rw [hpath]
                exact (pySwap_perm c.path g0 g1).trans hcvalid.2
            · exact ih sg srest rest hcsvalid hrest r hr2
    · rw [GA_run_bind] at h
      cases hrest : (Mutate dist mutation_rate fuel cs).run s.bump with
      | none => rw [hrest] at h; exact absurd h (by simp)
      | some prest =>
        obtain ⟨rest, srest⟩ := prest
        rw [hrest, Option.some_bind, GA_run_pure, Option.some_inj, Prod.mk.injEq] at h
        dsimp only at h
        obtain ⟨rfl, rfl⟩ := h
        intro r hr
        rcases List.mem_cons.mp hr with rfl | hr2
        · exact hcvalid
        · exact ih s.bump srest rest hcsvalid hrest r hr2

/-- One full evolution step preserves population validity. -/
theorem CreateNextGeneration_valid {all : List α} {first : α}
    {prev : List (Route α)} {elite_size : Nat} {mutation_rate : ℚ} {fuel : Nat}
    {s s' : RState} {pop : List (Route α)}
    (hnd : all.Nodup) (hprev : ValidPop all first prev)
    (h : (CreateNextGeneration dist prev elite_size mutation_rate fuel).run s = some (pop, s')) :
    ValidPop all first pop := by
  unfold CreateNextGeneration at h
  rw [GA_run_bind] at h
  cases hp : (Procreate dist (SetParentsFitness prev) elite_size fuel).run s with
  | none => rw [hp] at h; exact absurd h (by simp)
  | some pp =>
    obtain ⟨children, sp⟩ := pp
    rw [hp, Option.some_bind] at h
    dsimp only at h
    rw [GA_run_bind] at h
    cases hm : (Mutate dist mutation_rate fuel children).run sp with
    | none => rw [hm] at h; exact absurd h (by simp)
    | some pm =>
      obtain ⟨next, sm⟩ := pm
      rw [hm, Option.some_bind, GA_run_pure, Option.some_inj, Prod.mk.injEq] at h
      dsimp only at h
      obtain ⟨rfl, rfl⟩ := h
      have hrows : ∀ row ∈ SetParentsFitness prev, ValidRoute all first row.1 :=
        fun row hrow => hprev row.1 (mem_SetParentsFitness hrow)
      have hch := Procreate_valid hnd hrows hp
      have hmut := Mutate_valid children sp sm next hch hm
      exact SortRoutes_valid hmut

/-- The evolution loop preserves population validity through every
generation down to the final one. -/
theorem evolveLoop_valid {all : List α} {first : α} {elite_size : Nat}
    {mutation_rate : ℚ} {fuel : Nat}
    (hnd : all.Nodup) :
    ∀ (gens : Nat) (pop : List (Route α)) (s s' : RState) (bests : List ℚ)
      (stats : List (ℚ × ℚ)) (finalPop : List (Route α)),
      ValidPop all first pop →
      (evolveLoop dist elite_size mutation_rate fuel gens pop).run s =
        some ((bests, stats, finalPop), s') →
      ValidPop all first finalPop := by
  intro gens
  induction gens with
  | zero =>
    intro pop s s' bests stats finalPop hvalid h
    rw [evolveLoop, GA_run_pure, Option.some_inj, Prod.mk.injEq] at h
    obtain ⟨h1, rfl⟩ := h
    rw [Prod.mk.injEq] at h1
    obtain ⟨rfl, h2⟩ := h1
    rw [Prod.mk.injEq] at h2
    obtain ⟨rfl, rfl⟩ := h2
    exact hvalid
  | succ g ih =>
    intro pop s s' bests stats finalPop hvalid h
    rw [evolveLoop, GA_run_bind] at h
    cases hng : (CreateNextGeneration dist pop elite_size mutation_rate fuel).run s with
    | none => rw [hng] at h; exact absurd h (by simp)
    | some png =>
      obtain ⟨pop', sng⟩ := png
      rw [hng, Option.some_bind] at h
      dsimp only at h
      have hvalid' := CreateNextGeneration_valid hnd hvalid hng
      cases hbest : pop'.get? 0 with
      | none => rw [hbest] at h; exact absurd h (by simp [run_pyRaise])
      | some best =>
        rw [hbest, GA_run_bind] at h
        cases hrec : (evolveLoop dist elite_size mutation_rate fuel g pop').run sng with
        | none => rw [hrec] at h; exact absurd h (by simp)
        | some prec =>
          obtain ⟨⟨bests', stats', final'⟩, srec⟩ := prec
          rw [hrec, Option.some_bind, GA_run_pure, Option.some_inj, Prod.mk.injEq] at h
          dsimp only at h
          obtain ⟨h1, rfl⟩ := h
          rw [Prod.mk.injEq] at h1
          obtain ⟨rfl, h2⟩ := h1
          rw [Prod.mk.injEq] at h2
          obtain ⟨rfl, rfl⟩ := h2
          exact ih pop' sng srec bests' stats' final' hvalid' hrec

end CoreLemmas

/-! ## Claims about the data model -/

/-- Claim C1: recombining the mother path `[A,B,C,D,E,F]` with the father
path `[A,F,B,E,D,C]` under cut indices `(2, 5)` produces exactly the child
path `[A,C,B,E,D,F]`: the father segment `father.path[2:5)` is removed
from a copy of the mother's path and each segment element is then inserted
sequentially, in segment order, at the index that element occupies in the
father's full path, each insertion index applying to the child's current
length at that step. -/
theorem claim_C1_crossover_scenario :
    crossoverChild motherPathC1 fatherPathC1 2 5 = [St.A, St.C, St.B, St.E, St.D, St.F] := by
  decide

/-- Claim C2: for every generation produced by the evolution loop and
every candidate in that generation's population, the candidate's path has
the designated start location at position 0 and is a permutation of the
full location set.  `pop0` is the initial population (built by
`CreateInitialPopulation` and preserved by it), and `finalPop` is the
population after `gens` evolution steps, each of which applies crossover
(`Procreate`) and mutation (`Mutate`); since `gens` is universally
quantified, the population of every generation of a longer run is
covered.  The proof goes through preservation lemmas for initialization
(`CreateRoute_valid`), crossover (`matingLoop_valid` /
`crossoverChild_perm` / `crossoverChild_head`) and mutation
(`Mutate_valid`). -/
theorem claim_C2_population_invariant {α : Type} [DecidableEq α] (dist : α → α → Option ℚ)
    (station_list : List α) (first : α) (pop_size gens elite_size : Nat)
    (mutation_rate : ℚ) (fuel : Nat) (s s1 s2 : RState)
    (pop0 finalPop : List (Route α)) (bests : List ℚ) (stats : List (ℚ × ℚ))
    (hnd : station_list.Nodup) (hmem : first ∈ station_list)
    (hinit : (CreateInitialPopulation dist pop_size station_list first).run s =
      some (pop0, s1))
    (hloop : (evolveLoop dist elite_size mutation_rate fuel gens (SortRoutes pop0)).run s1 =
      some ((bests, stats, finalPop), s2)) :
    ValidPop station_list first pop0 ∧ ValidPop station_list first finalPop := by
  have h0 := CreateInitialPopulation_valid pop_size s s1 pop0 hmem hinit
  exact ⟨h0, evolveLoop_valid hnd gens (SortRoutes pop0) s1 s2 bests stats finalPop
    (SortRoutes_valid h0) hloop⟩

theorem c2_init_run :
    (CreateInitialPopulation dist3 1 stations3 St.A).run ⟨genW, 0⟩ =
      some ([routeABC], ⟨genW, 1⟩) := by
  norm_num [CreateInitialPopulation, CreateRoute, Route.make, routeDuration,
    applySample_nil_cons, RState.bump, dist3, genW, stations3, GA_run_bind,
    GA_run_pure, run_pySample, Option.some_bind, routeABC]

theorem c2_loop_run :
    (evolveLoop dist3 1 0 2 1 (SortRoutes [routeABC])).run ⟨genW, 1⟩ =
      some (([8], [(8, 0)], [routeABC]), ⟨genW, 2⟩) := by
  norm_num [evolveLoop, CreateNextGeneration, SetParentsFitness, tableRows, Procreate,
    SelectParents, selectLoop, matingLoop, Mutate, SortRoutes, meanQ, varQ,
    run_pyRandom, run_pyRandint, RState.bump, dist3, genW, routeABC, GA_run_bind,
    GA_run_pure, Option.some_bind, Int.fract, Route.time_taken]

/-- Concrete witness for C2: a one-route population over the three
stations, evolved for one generation. -/
theorem claim_C2_witness :
    ValidPop stations3 St.A [routeABC] ∧ ValidPop stations3 St.A [routeABC] :=
  claim_C2_population_invariant dist3 stations3 St.A 1 1 1 0 2 ⟨genW, 0⟩ ⟨genW, 1⟩
    ⟨genW, 2⟩ [routeABC] [routeABC] [8] [(8, 0)] (by decide) (by decide)
    c2_init_run c2_loop_run

/-! ## Helper lemmas for mutation at rate one -/

theorem pySwap_ne {β : Type} (l : List β) (i j : Nat) (hnd : l.Nodup) (hij : i ≠ j)
    (hi : i < l.length) (hj : j < l.length) : pySwap l i j ≠ l := by
  intro heq
  have hgi : l.get? i = some l[i] := by
    rw [List.get?_eq_getElem?, List.getElem?_eq_getElem hi]
  have hgj : l.get? j = some l[j] := by
    rw [List.get?_eq_getElem?, List.getElem?_eq_getElem hj]
  have hswap : pySwap l i j = (l.set i l[j]).set j l[i] := by
    rw [pySwap, hgi, hgj]
  have hob : (pySwap l i j)[i]? = some l[j] := by
    rw [hswap, List.getElem?_set_ne (Ne.symm hij), List.getElem?_set_self]
    exact hi
  rw [heq, List.getElem?_eq_getElem hi, Option.some_inj] at hob
  exact hij (hnd.getElem_inj_iff.mp hob)

/-- With `mutation_rate = 1` every route of the input is replaced: the
roll `random()` is always `< 1 ≤ 1`, so the mutation branch is taken for
every member, and each output path is the input path with the two drawn
genes swapped. -/
theorem Mutate_rate_one_spec {α : Type} [DecidableEq α] {dist : α → α → Option ℚ}
    {fuel : Nat} :
    ∀ (cs : List (Route α)) (s s' : RState) (out : List (Route α)),
      (Mutate dist 1 fuel cs).run s = some (out, s') →
      out.length = cs.length ∧
      ∀ i c o, cs.get? i = some c → out.get? i = some o →
        ∃ g0 g1, g0 ≠ g1 ∧ 1 ≤ g0 ∧ 1 ≤ g1 ∧
          (1 ≤ c.path.length - 1 → g0 ≤ c.path.length - 1 ∧ g1 ≤ c.path.length - 1) ∧
          o.path = pySwap c.path g0 g1 := by
  intro cs
  induction cs with
  | nil =>
    intro s s' out h
    rw [Mutate, GA_run_pure, Option.some_inj, Prod.mk.injEq] at h
    obtain ⟨rfl, rfl⟩ := h
    exact ⟨rfl, fun i c o hc _ => absurd hc (by simp)⟩
  | cons c cs ih =>
    intro s s' out h
    rw [Mutate, GA_run_bind, run_pyRandom, Option.some_bind] at h
    dsimp only at h
    rw [if_pos (le_of_lt (Int.fract_lt_one _))] at h
    rw [GA_run_bind] at h
    cases hg : (drawGenes c.path.length fuel).run s.bump with
    | none => rw [hg] at h; exact absurd h (by simp)
    | some pg =>
      obtain ⟨⟨g0, g1⟩, sg⟩ := pg
      rw [hg, Option.some_bind] at h
      dsimp only at h
      have hgenes := drawGenes_spec hg
      cases hmk : Route.make dist (pySwap c.path g0 g1) with
      | none => rw [hmk] at h; exact absurd h (by simp [run_pyRaise])
      | some mutated =>
        rw [hmk, GA_run_bind] at h
        cases hrest : (Mutate dist 1 fuel cs).run sg with
        | none => rw [hrest] at h; exact absurd h (by simp)
        | some prest =>
          obtain ⟨rest, srest⟩ := prest
          rw [hrest, Option.some_bind, GA_run_pure, Option.some_inj, Prod.mk.injEq] at h
          dsimp only at h
          obtain ⟨rfl, rfl⟩ := h
          have ihspec := ih sg srest rest hrest
          refine ⟨by simp [ihspec.1], ?_⟩
          intro i ci oi hci hoi
          cases i with
          | zero =>
            rw [List.get?_cons_zero, Option.some_inj] at hci hoi
            subst hci
            subst hoi
            exact ⟨g0, g1, hgenes.1, hgenes.2.1, hgenes.2.2.1,
              fun hn => hgenes.2.2.2 hn, Route.make_path hmk⟩
          | succ k =>
            rw [List.get?_cons_succ] at hci hoi
            exact ihspec.2 k ci oi hci hoi

/-- The elite prefix of `Procreate`'s output is exactly the `Route`
column of the first `elite_size` rows, carried over verbatim. -/
theorem Procreate_take_elites {α : Type} [DecidableEq α] {dist : α → α → Option ℚ}
    {parents : PTable α} {elite_size fuel : Nat} {s s' : RState}
    {children : List (Route α)}
    (helite : elite_size ≤ parents.length)
    (h : (Procreate dist parents elite_size fuel).run s = some (children, s')) :
    children.take elite_size = (parents.take elite_size).map (fun row => row.1) := by
  unfold Procreate at h
  rw [GA_run_bind] at h
  cases hsel : (SelectParents parents elite_size fuel).run s with
  | none => rw [hsel] at h; exact absurd h (by simp)
  | some psel =>
    obtain ⟨⟨mothers, fathers⟩, ssel⟩ := psel
    rw [hsel, Option.some_bind] at h
    dsimp only at h
    rw [GA_run_bind] at h
    cases hml : (matingLoop dist parents fuel mothers fathers).run ssel with
    | none => rw [hml] at h; exact absurd h (by simp)
    | some pml =>
      obtain ⟨kids, sml⟩ := pml
      rw [hml, Option.some_bind, GA_run_pure, Option.some_inj, Prod.mk.injEq] at h
      dsimp only at h
      obtain ⟨rfl, rfl⟩ := h
      refine List.take_left' ?_
      rw [List.length_map, List.length_take]
      omega

/-- Claim C3: in each evolution step the mutation pass is applied to
every member of the working set, including the elite candidates carried
over verbatim (the elite prefix of `Procreate`'s output is the `Route`
column of the top rows); with `mutation_rate = 1` every member — elites
included — is replaced by a new candidate whose path is the old path with
two distinct non-start positions swapped, so every member's (in
particular every elite's) composition changes between carry-over and the
next ranked generation. -/
theorem claim_C3_elites_mutated {α : Type} [DecidableEq α] (dist : α → α → Option ℚ)
    (parents : PTable α) (elite_size fuel : Nat) (s s' t t' : RState)
    (children out : List (Route α))
    (helite : elite_size ≤ parents.length)
    (hproc : (Procreate dist parents elite_size fuel).run s = some (children, s'))
    (hmut : (Mutate dist 1 fuel children).run t = some (out, t'))
    (hnodup : ∀ c ∈ children, c.path.Nodup)
    (hlen : ∀ c ∈ children, 3 ≤ c.path.length) :
    children.take elite_size = (parents.take elite_size).map (fun row => row.1) ∧
    SwapMutatedAll children out := by
  have hspec := Mutate_rate_one_spec children t t' out hmut
  refine ⟨Procreate_take_elites helite hproc, hspec.1, ?_⟩
  intro i c o hc ho
  have hcmem : c ∈ children := List.get?_mem hc
  have hcn := hlen c hcmem
  have hone : 1 ≤ c.path.length - 1 := by omega
  obtain ⟨g0, g1, hne, h1, h2, hb, hpath⟩ := hspec.2 i c o hc ho
  obtain ⟨hb0, hb1⟩ := hb hone
  refine ⟨⟨g0, g1, hne, h1, h2, hb0, hb1, hpath⟩, ?_⟩
  rw [hpath]
  exact pySwap_ne c.path g0 g1 (hnodup c hcmem) hne (by omega) (by omega)

theorem parents3_eq : parents3 = tbl3 := by
  norm_num [parents3, SetParentsFitness, tableRows, routeABC, routeACB, tbl3]

theorem c3_selOne_run :
    (selectOne tbl3 3).run ⟨genW3, 0⟩ = some ((some 0, some 1), ⟨genW3, 2⟩) := by
  rw [selectOne, GA_run_bind, run_pyRandom, Option.some_bind]
  rw [GA_run_bind, run_pyRandom, Option.some_bind]
  norm_num [dedupFather, scanCDF, PRow.cdf, tbl3, genW3, RState.bump, GA_run_pure,
    Int.fract]

theorem c3_sel_run :
    (SelectParents parents3 1 3).run ⟨genW3, 0⟩ = some (([0], [1]), ⟨genW3, 2⟩) := by
  rw [SelectParents, parents3_eq, show tbl3.length - 1 = 1 from rfl]
  rw [selectLoop, GA_run_bind, c3_selOne_run, Option.some_bind]
  norm_num [selectLoop, GA_run_bind, GA_run_pure, Option.some_bind]

theorem c3_genes_run (c : Nat) (h2 : genW3.ints c % 2 = 0) (h3 : genW3.ints (c + 1) % 2 = 1) :
    (drawGenes 3 3).run ⟨genW3, c⟩ = some ((1, 2), ⟨genW3, c + 2⟩) := by
  rw [drawGenes, GA_run_bind, run_pyRandint, Option.some_bind]
  dsimp only [RState.bump]
  rw [GA_run_bind, run_pyRandint, Option.some_bind]
  dsimp only [RState.bump]
  rw [h2, h3, GA_run_bind]
  norm_num [redrawGene, GA_run_pure, Option.some_bind]

theorem c3_genes_run' (c : Nat) (h2 : genW3.ints c % 2 = 1) (h3 : genW3.ints (c + 1) % 2 = 0) :
    (drawGenes 3 3).run ⟨genW3, c⟩ = some ((2, 1), ⟨genW3, c + 2⟩) := by
  rw [drawGenes, GA_run_bind, run_pyRandint, Option.some_bind]
  dsimp only [RState.bump]
  rw [GA_run_bind, run_pyRandint, Option.some_bind]
  dsimp only [RState.bump]
  rw [h2, h3, GA_run_bind]
  norm_num [redrawGene, GA_run_pure, Option.some_bind]

theorem c3_mating_run :
    (matingLoop dist3 tbl3 3 [0] [1]).run ⟨genW3, 2⟩ = some ([routeACB], ⟨genW3, 4⟩) := by
  rw [matingLoop]
  rw [show tbl3.get? 0 = some (routeABC, 1/8, 1/8, 13/21) from rfl,
    show tbl3.get? 1 = some (routeACB, 1/13, 21/104, 1) from rfl]
  dsimp only
  rw [show (routeACB, (1 : ℚ)/13, (21 : ℚ)/104, (1 : ℚ)).1.path.length = 3 from rfl]
  rw [GA_run_bind, c3_genes_run 2 (by norm_num [genW3]) (by norm_num [genW3]),
    Option.some_bind]
  norm_num [crossoverChild, pyInsert, Route.make, routeDuration, routeABC, routeACB,
    dist3, matingLoop, GA_run_bind, GA_run_pure, Option.some_bind]
  decide

theorem c3_proc_run :
    (Procreate dist3 parents3 1 3).run ⟨genW3, 0⟩ =
      some ([routeABC, routeACB], ⟨genW3, 4⟩) := by
  rw [Procreate, GA_run_bind, c3_sel_run, Option.some_bind]
  dsimp only
  rw [GA_run_bind, parents3_eq, c3_mating_run, Option.some_bind]
  rw [GA_run_pure]
  norm_num [tbl3]

theorem c3_mut_tail_run :
    (Mutate dist3 1 3 [routeACB]).run ⟨genW3, 7⟩ = some ([routeABC], ⟨genW3, 10⟩) := by
  rw [Mutate, GA_run_bind, run_pyRandom, Option.some_bind]
  dsimp only [RState.bump]
  rw [if_pos (le_of_lt (Int.fract_lt_one _))]
  rw [show routeACB.path.length = 3 from rfl]
  rw [GA_run_bind, c3_genes_run 8 (by norm_num [genW3]) (by norm_num [genW3]),
    Option.some_bind]
  norm_num [pySwap, Route.make, routeDuration, routeABC, routeACB, dist3, Mutate,
    GA_run_bind, GA_run_pure, Option.some_bind]

theorem c3_mut_run :
    (Mutate dist3 1 3 [routeABC, routeACB]).run ⟨genW3, 4⟩ =
      some ([routeACB, routeABC], ⟨genW3, 10⟩) := by
  rw [Mutate, GA_run_bind, run_pyRandom, Option.some_bind]
  dsimp only [RState.bump]
  rw [if_pos (le_of_lt (Int.fract_lt_one _))]
  rw [show routeABC.path.length = 3 from rfl]
  rw [GA_run_bind, c3_genes_run' 5 (by norm_num [genW3]) (by norm_num [genW3]),
    Option.some_bind]
  dsimp only
  rw [show Route.make dist3 (pySwap routeABC.path 2 1) = some routeACB from by
    norm_num [pySwap, Route.make, routeDuration, routeABC, routeACB, dist3]]
  rw [GA_run_bind, c3_mut_tail_run, Option.some_bind, GA_run_pure]

/-- Concrete witness for C3: the two-route population bred from
`parents3` carries the elite `routeABC` verbatim at position 0, and the
full-rate mutation pass then changes every member, the elite included. -/
theorem claim_C3_witness :
    [routeABC, routeACB].take 1 = (parents3.take 1).map (fun row => row.1) ∧
    SwapMutatedAll [routeABC, routeACB] [routeACB, routeABC] :=
  claim_C3_elites_mutated dist3 parents3 1 3 ⟨genW3, 0⟩ ⟨genW3, 4⟩ ⟨genW3, 4⟩
    ⟨genW3, 10⟩ [routeABC, routeACB] [routeACB, routeABC] (by decide)
    c3_proc_run c3_mut_run (by decide) (by decide)

/-! ## Helper definitions and lemmas for the frame claim -/

theorem Route.make_fresh {α : Type} {dist : α → α → Option ℚ} {p : List α} {r : Route α}
    (h : Route.make dist p = some r) : FreshlyMade dist r := by
  unfold FreshlyMade
  rw [Route.make_path h]
  exact h

theorem matingLoop_fresh {α : Type} [DecidableEq α] {dist : α → α → Option ℚ}
    {parents : PTable α} {fuel : Nat} :
    ∀ (mothers fathers : List Nat) (s s' : RState) (out : List (Route α)),
      (matingLoop dist parents fuel mothers fathers).run s = some (out, s') →
      ∀ k ∈ out, FreshlyMade dist k := by
  intro mothers
  induction mothers with
  | nil =>
    intro fathers s s' out h
    rw [matingLoop, GA_run_pure, Option.some_inj, Prod.mk.injEq] at h
    obtain ⟨rfl, rfl⟩ := h
    intro k hk
    exact absurd hk (List.not_mem_nil k)
  | cons mi ms ih =>
    intro fathers s s' out h
    cases fathers with
    | nil => rw [matingLoop] at h; exact absurd h (by simp [run_pyRaise])
    | cons fi fs =>
      rw [matingLoop] at h
      cases hmrow : parents.get? mi with
      | none => rw [hmrow] at h; exact absurd h (by simp [run_pyRaise])
      | some motherRow =>
        cases hfrow : parents.get? fi with
        | none => rw [hmrow, hfrow] at h; exact absurd h (by simp [run_pyRaise])
        | some fatherRow =>
          rw [hmrow, hfrow, GA_run_bind] at h
          cases hg : (drawGenes fatherRow.1.path.length fuel).run s with
          | none => rw [hg] at h; exact absurd h (by simp)
          | some pg =>
            obtain ⟨⟨g0, g1⟩, sg⟩ := pg
            rw [hg, Option.some_bind] at h
            dsimp only at h
            cases hmk : Route.make dist (crossoverChild motherRow.1.path fatherRow.1.path
                (min g0 g1) (max g0 g1)) with
            | none => rw [hmk] at h; exact absurd h (by simp [run_pyRaise])
            | some child =>
              rw [hmk, GA_run_bind] at h
              cases hrest : (matingLoop dist parents fuel ms fs).run sg with
              | none => rw [hrest] at h; exact absurd h (by simp)
              | some prest =>
                obtain ⟨rest, srest⟩ := prest
                rw [hrest, Option.some_bind, GA_run_pure, Option.some_inj,
                  Prod.mk.injEq] at h
                dsimp only at h
                obtain ⟨rfl, rfl⟩ := h
                intro k hk
                rcases List.mem_cons.mp hk with rfl | hk2
                · exact Route.make_fresh hmk
                · exact ih fs sg srest rest hrest k hk2

theorem Mutate_pointwise_fresh {α : Type} [DecidableEq α] {dist : α → α → Option ℚ}
    {mutation_rate : ℚ} {fuel : Nat} :
    ∀ (cs : List (Route α)) (s s' : RState) (out : List (Route α)),
      (Mutate dist mutation_rate fuel cs).run s = some (out, s') →
      MutateFresh dist cs out := by
  intro cs
  induction cs with
  | nil =>
    intro s s' out h
    rw [Mutate, GA_run_pure, Option.some_inj, Prod.mk.injEq] at h
    obtain ⟨rfl, rfl⟩ := h
    exact ⟨rfl, fun i c o hc _ => absurd hc (by simp)⟩
  | cons c cs ih =>
    intro s s' out h
    rw [Mutate, GA_run_bind, run_pyRandom, Option.some_bind] at h
    dsimp only at h
    split at h
    · rw [GA_run_bind] at h
      cases hg : (drawGenes c.path.length fuel).run s.bump with
      | none => rw [hg] at h; exact absurd h (by simp)
      | some pg =>
        obtain ⟨⟨g0, g1⟩, sg⟩ := pg
        rw [hg, Option.some_bind] at h
        dsimp only at h
        cases hmk : Route.make dist (pySwap c.path g0 g1) with
        | none => rw [hmk] at h; exact absurd h (by simp [run_pyRaise])
        | some mutated =>
          rw [hmk, GA_run_bind] at h
          cases hrest : (Mutate dist mutation_rate fuel cs).run sg with
          | none => rw [hrest] at h; exact absurd h (by simp)
          | some prest =>
            obtain ⟨rest, srest⟩ := prest
            rw [hrest, Option.some_bind, GA_run_pure, Option.some_inj, Prod.mk.injEq] at h
            dsimp only at h
            obtain ⟨rfl, rfl⟩ := h
            have ihspec := ih sg srest rest hrest
            refine ⟨by simp [ihspec.1], ?_⟩
            intro i ci oi hci hoi
            cases i with
            | zero =>
              rw [List.get?_cons_zero, Option.some_inj] at hci hoi
              subst hci
              subst hoi
              exact Or.inr (Route.make_fresh hmk)
            | succ k =>
              rw [List.get?_cons_succ] at hci hoi
              exact ihspec.2 k ci oi hci hoi
    · rw [GA_run_bind] at h
      cases hrest : (Mutate dist mutation_rate fuel cs).run s.bump with
      | none => rw [hrest] at h; exact absurd h (by simp)
      | some prest =>
        obtain ⟨rest, srest⟩ := prest
        rw [hrest, Option.some_bind, GA_run_pure, Option.some_inj, Prod.mk.injEq] at h
        dsimp only at h
        obtain ⟨rfl, rfl⟩ := h
        have ihspec := ih s.bump srest rest hrest
        refine ⟨by simp [ihspec.1], ?_⟩
        intro i ci oi hci hoi
        cases i with
        | zero =>
          rw [List.get?_cons_zero, Option.some_inj] at hci hoi
          subst hci
          subst hoi
          exact Or.inl rfl
        | succ k =>
          rw [List.get?_cons_succ] at hci hoi
          exact ihspec.2 k ci oi hci hoi

/-- Claim C9: crossover and mutation never edit an existing candidate in
place.  `Procreate`'s output consists of the input rows' own `Route`
values (elites, unchanged) followed only by freshly constructed children
(each obtained by running the `Route` constructor on a newly built path,
so its duration is freshly computed); `Mutate` leaves each position
either holding the very input candidate or a freshly constructed one.
Input candidates are immutable values of the embedding: no operation can
alter a `Route` once built, which models the fact that both operations
work on copies (`mother[...].path[:]`, `children[child].path[:]`) of the
input paths. -/
theorem claim_C9_no_inplace_edit {α : Type} [DecidableEq α] (dist : α → α → Option ℚ)
    (parents : PTable α) (elite_size fuel : Nat) (mutation_rate : ℚ) (s s' t t' : RState)
    (children out : List (Route α))
    (hproc : (Procreate dist parents elite_size fuel).run s = some (children, s'))
    (hmut : (Mutate dist mutation_rate fuel children).run t = some (out, t')) :
    CrossoverFresh dist parents elite_size children ∧ MutateFresh dist children out := by
  constructor
  · unfold Procreate at hproc
    rw [GA_run_bind] at hproc
    cases hsel : (SelectParents parents elite_size fuel).run s with
    | none => rw [hsel] at hproc; exact absurd hproc (by simp)
    | some psel =>
      obtain ⟨⟨mothers, fathers⟩, ssel⟩ := psel
      rw [hsel, Option.some_bind] at hproc
      dsimp only at hproc
      rw [GA_run_bind] at hproc
      cases hml : (matingLoop dist parents fuel mothers fathers).run ssel with
      | none => rw [hml] at hproc; exact absurd hproc (by simp)
      | some pml =>
        obtain ⟨kids, sml⟩ := pml
        rw [hml, Option.some_bind, GA_run_pure, Option.some_inj, Prod.mk.injEq] at hproc
        dsimp only at hproc
        obtain ⟨rfl, rfl⟩ := hproc
        exact ⟨kids, rfl, matingLoop_fresh mothers fathers ssel sml kids hml⟩
  · exact Mutate_pointwise_fresh children t t' out hmut

/-- Concrete witness for C9: the witness breeding and full-rate mutation
runs over `parents3`. -/
theorem claim_C9_witness :
    CrossoverFresh dist3 parents3 1 [routeABC, routeACB] ∧
      MutateFresh dist3 [routeABC, routeACB] [routeACB, routeABC] :=
  claim_C9_no_inplace_edit dist3 parents3 1 3 1 ⟨genW3, 0⟩ ⟨genW3, 4⟩ ⟨genW3, 4⟩
    ⟨genW3, 10⟩ [routeABC, routeACB] [routeACB, routeABC] c3_proc_run c3_mut_run

/-! ## Helper lemmas for the selection claims -/

theorem tableRows_cdf_last {α : Type} (total : ℚ) :
    ∀ (rs : List (Route α)) (acc : ℚ) (r : Route α),
      ((tableRows total acc (r :: rs)).map PRow.cdf).getLast? =
        some ((acc + ((r :: rs).map (fun x => 1 / x.time_taken)).sum) / total) := by
  intro rs
  induction rs with
  | nil =>
    intro acc r
    simp [tableRows, PRow.cdf]
  | cons r' rest ih =>
    intro acc r
    rw [show tableRows total acc (r :: r' :: rest) =
      (r, 1 / r.time_taken, acc + 1 / r.time_taken,
        (acc + 1 / r.time_taken) / total) :: tableRows total (acc + 1 / r.time_taken)
        (r' :: rest) from rfl]
    rw [show tableRows total (acc + 1 / r.time_taken) (r' :: rest) =
      (r', 1 / r'.time_taken, acc + 1 / r.time_taken + 1 / r'.time_taken,
        (acc + 1 / r.time_taken + 1 / r'.time_taken) / total) ::
        tableRows total (acc + 1 / r.time_taken + 1 / r'.time_taken) rest from rfl]
    rw [List.map_cons, List.map_cons, List.getLast?_cons_cons]
    rw [← List.map_cons PRow.cdf _ (tableRows total (acc + 1 / r.time_taken + 1 / r'.time_taken) rest)]
    rw [show ((r', 1 / r'.time_taken, acc + 1 / r.time_taken + 1 / r'.time_taken,
        (acc + 1 / r.time_taken + 1 / r'.time_taken) / total) ::
        tableRows total (acc + 1 / r.time_taken + 1 / r'.time_taken) rest) =
      tableRows total (acc + 1 / r.time_taken) (r' :: rest) from rfl]
    rw [ih (acc + 1 / r.time_taken) r']
    rw [Option.some_inj]
    rw [List.map_cons, List.sum_cons, List.map_cons, List.sum_cons]
    rw [List.map_cons, List.sum_cons]
    ring

/-- The sum of reciprocal durations of a non-empty positive-duration
population is positive. -/
theorem fitness_sum_pos {α : Type} {rs : List (Route α)} (hne : rs ≠ [])
    (hpos : ∀ r ∈ rs, 0 < r.time_taken) :
    0 < (rs.map (fun x => 1 / x.time_taken)).sum := by
  refine List.sum_pos _ ?_ (by simpa using hne)
  intro q hq
  obtain ⟨r, hr, rfl⟩ := List.mem_map.mp hq
  exact one_div_pos.mpr (hpos r hr)

/-- The last CDF entry of the fitness table equals one. -/
theorem SetParentsFitness_last_cdf {α : Type} {rs : List (Route α)} (hne : rs ≠ [])
    (hpos : ∀ r ∈ rs, 0 < r.time_taken) :
    ((SetParentsFitness rs).map PRow.cdf).getLast? = some 1 := by
  cases rs with
  | nil => exact absurd rfl hne
  | cons r rest =>
    rw [SetParentsFitness, tableRows_cdf_last, Option.some_inj, zero_add]
    exact div_self (ne_of_gt (fitness_sum_pos hne hpos))

/-- With the last CDF equal to one, the scan succeeds on every draw
below one. -/
theorem scanCDF_total {α : Type} {tbl : PTable α}
    (hlast : (tbl.map PRow.cdf).getLast? = some 1) : ScanTotal tbl := by
  intro u _ hu1
  rw [scanCDF, List.findIdx?_isSome]
  rw [List.getLast?_map] at hlast
  cases hl : tbl.getLast? with
  | none => rw [hl] at hlast; exact absurd hlast (by simp)
  | some row =>
    rw [hl] at hlast
    simp only [Option.map_some', Option.some_inj] at hlast
    have hmem := List.mem_of_getLast?_eq_some hl
    rw [List.any_eq_true]
    exact ⟨row, hmem, decide_eq_true (by rw [hlast]; exact le_of_lt hu1)⟩

/-- When the scan is total, every successful selection iteration picks
both a mother and a father. -/
theorem selectOne_total {α : Type} {tbl : PTable α} (htot : ScanTotal tbl) :
    SelectOneTotal tbl := by
  intro fuel s p s' h
  rw [selectOne, GA_run_bind, run_pyRandom, Option.some_bind] at h
  dsimp only at h
  rw [GA_run_bind, run_pyRandom, Option.some_bind] at h
  dsimp only at h
  have hm := htot (Int.fract (s.gen.floats s.cnt)) (Int.fract_nonneg _) (Int.fract_lt_one _)
  have hf := htot (Int.fract (s.bump.gen.floats s.bump.cnt)) (Int.fract_nonneg _)
    (Int.fract_lt_one _)
  cases hsm : scanCDF tbl (Int.fract (s.gen.floats s.cnt)) with
  | none => rw [hsm] at hm; exact absurd hm (by simp)
  | some mi =>
    cases hsf : scanCDF tbl (Int.fract (s.bump.gen.floats s.bump.cnt)) with
    | none => rw [hsf] at hf; exact absurd hf (by simp)
    | some fi =>
      rw [hsm, hsf, GA_run_bind] at h
      cases hd : (dedupFather tbl mi fi fuel).run s.bump.bump with
      | none => rw [hd] at h; exact absurd h (by simp)
      | some pd =>
        obtain ⟨fi', sd⟩ := pd
        rw [hd, Option.some_bind, GA_run_pure, Option.some_inj, Prod.mk.injEq] at h
        dsimp only at h
        obtain ⟨rfl, rfl⟩ := h
        exact ⟨rfl, rfl⟩

/-- Claim C10: for every non-empty population whose candidates all have
positive duration, the last entry of the selection table's CDF column
equals `1`; consequently, for every uniform draw `u ∈ [0, 1)` the linear
scan of `SelectParents` finds a row with CDF `≥ u` (its fall-through
branch, which would append no parent, is unreachable), and every
successful iteration of the mating loop appends exactly one mother and
one father. -/
theorem claim_C10_cdf_reaches_one {α : Type} [DecidableEq α] (rs : List (Route α))
    (hne : rs ≠ []) (hpos : ∀ r ∈ rs, 0 < r.time_taken) :
    ((SetParentsFitness rs).map PRow.cdf).getLast? = some 1 ∧
    ScanTotal (SetParentsFitness rs) ∧ SelectOneTotal (SetParentsFitness rs) := by
  have hlast := SetParentsFitness_last_cdf hne hpos
  have htot := scanCDF_total hlast
  exact ⟨hlast, htot, selectOne_total htot⟩

/-- Concrete witness for C10: the two-route witness population with
durations `8` and `13`. -/
theorem claim_C10_witness :
    ((SetParentsFitness [routeABC, routeACB]).map PRow.cdf).getLast? = some 1 ∧
    ScanTotal (SetParentsFitness [routeABC, routeACB]) ∧
    SelectOneTotal (SetParentsFitness [routeABC, routeACB]) :=
  claim_C10_cdf_reaches_one [routeABC, routeACB] (by simp)
    (by norm_num [routeABC, routeACB])

theorem dedupFather_spec {α : Type} {tbl : PTable α} {mi : Nat} :
    ∀ (fuel fi : Nat) (s : RState) (v : Nat) (s' : RState),
      FirstHit tbl fi →
      (dedupFather tbl mi fi fuel).run s = some (v, s') →
      v ≠ mi ∧ FirstHit tbl v := by
  intro fuel
  induction fuel with
  | zero =>
    intro fi s v s' hfi h
    rw [dedupFather] at h
    split at h
    · exact absurd h (by simp [run_pyRaise])
    · rename_i hne
      rw [GA_run_pure, Option.some_inj, Prod.mk.injEq] at h
      obtain ⟨rfl, rfl⟩ := h
      exact ⟨hne, hfi⟩
  | succ f ih =>
    intro fi s v s' hfi h
    rw [dedupFather] at h
    split at h
    · rw [GA_run_bind, run_pyRandom, Option.some_bind] at h
      dsimp only at h
      cases hscan : scanCDF tbl (Int.fract (s.gen.floats s.cnt)) with
      | none =>
        rw [hscan] at h
        exact ih fi s.bump v s' hfi h
      | some j =>
        rw [hscan] at h
        exact ih j s.bump v s' ⟨Int.fract (s.gen.floats s.cnt), Int.fract_nonneg _,
          Int.fract_lt_one _, hscan⟩ h
    · rename_i hne
      rw [GA_run_pure, Option.some_inj, Prod.mk.injEq] at h
      obtain ⟨rfl, rfl⟩ := h
      exact ⟨hne, hfi⟩

theorem selectOne_spec {α : Type} {tbl : PTable α} (htot : ScanTotal tbl)
    {fuel : Nat} {s : RState} {p : Option Nat × Option Nat} {s' : RState}
    (h : (selectOne tbl fuel).run s = some (p, s')) :
    ∃ mi fi, p = (some mi, some fi) ∧ mi ≠ fi ∧ FirstHit tbl mi ∧ FirstHit tbl fi := by
  rw [selectOne, GA_run_bind, run_pyRandom, Option.some_bind] at h
  dsimp only at h
  rw [GA_run_bind, run_pyRandom, Option.some_bind] at h
  dsimp only at h
  have hm := htot (Int.fract (s.gen.floats s.cnt)) (Int.fract_nonneg _) (Int.fract_lt_one _)
  have hf := htot (Int.fract (s.bump.gen.floats s.bump.cnt)) (Int.fract_nonneg _)
    (Int.fract_lt_one _)
  cases hsm : scanCDF tbl (Int.fract (s.gen.floats s.cnt)) with
  | none => rw [hsm] at hm; exact absurd hm (by simp)
  | some mi =>
    cases hsf : scanCDF tbl (Int.fract (s.bump.gen.floats s.bump.cnt)) with
    | none => rw [hsf] at hf; exact absurd hf (by simp)
    | some fi =>
      rw [hsm, hsf, GA_run_bind] at h
      cases hd : (dedupFather tbl mi fi fuel).run s.bump.bump with
      | none => rw [hd] at h; exact absurd h (by simp)
      | some pd =>
        obtain ⟨fi', sd⟩ := pd
        rw [hd, Option.some_bind, GA_run_pure, Option.some_inj, Prod.mk.injEq] at h
        dsimp only at h
        obtain ⟨rfl, rfl⟩ := h
        have hspec := dedupFather_spec fuel fi s.bump.bump fi' sd
          ⟨Int.fract (s.bump.gen.floats s.bump.cnt), Int.fract_nonneg _,
            Int.fract_lt_one _, hsf⟩ hd
        exact ⟨mi, fi', rfl, fun he => hspec.1 he.symm,
          ⟨Int.fract (s.gen.floats s.cnt), Int.fract_nonneg _, Int.fract_lt_one _, hsm⟩,
          hspec.2⟩

theorem selectLoop_spec {α : Type} {tbl : PTable α} (htot : ScanTotal tbl) {fuel : Nat} :
    ∀ (count : Nat) (s s' : RState) (ms fs : List Nat),
      (selectLoop tbl fuel count).run s = some ((ms, fs), s') →
      PairsSelected tbl count ms fs := by
  intro count
  induction count with
  | zero =>
    intro s s' ms fs h
    rw [selectLoop, GA_run_pure, Option.some_inj, Prod.mk.injEq] at h
    obtain ⟨h1, rfl⟩ := h
    rw [Prod.mk.injEq] at h1
    obtain ⟨rfl, rfl⟩ := h1
    exact ⟨rfl, rfl, fun i mi fi hmi _ => absurd hmi (by simp)⟩
  | succ n ih =>
    intro s s' ms fs h
    rw [selectLoop, GA_run_bind] at h
    cases hone : (selectOne tbl fuel).run s with
    | none => rw [hone] at h; exact absurd h (by simp)
    | some pone =>
      obtain ⟨p, sone⟩ := pone
      rw [hone, Option.some_bind] at h
      dsimp only at h
      rw [GA_run_bind] at h
      cases hrest : (selectLoop tbl fuel n).run sone with
      | none => rw [hrest] at h; exact absurd h (by simp)
      | some prest =>
        obtain ⟨⟨ms', fs'⟩, srest⟩ := prest
        rw [hrest, Option.some_bind, GA_run_pure, Option.some_inj, Prod.mk.injEq] at h
        dsimp only at h
        obtain ⟨h1, rfl⟩ := h
        rw [Prod.mk.injEq] at h1
        obtain ⟨rfl, rfl⟩ := h1
        obtain ⟨mi, fi, rfl, hne, hmi, hfi⟩ := selectOne_spec htot hone
        obtain ⟨hl1, hl2, hpt⟩ := ih sone srest ms' fs' hrest
        refine ⟨by simp [hl1], by simp [hl2], ?_⟩
        intro i mi' fi' hmi' hfi'
        cases i with
        | zero =>
          rw [show (some mi).toList ++ ms' = mi :: ms' from rfl, List.get?_cons_zero,
            Option.some_inj] at hmi'
          rw [show (some fi).toList ++ fs' = fi :: fs' from rfl, List.get?_cons_zero,
            Option.some_inj] at hfi'
          subst hmi'
          subst hfi'
          exact ⟨hne, hmi, hfi⟩
        | succ k =>
          rw [show (some mi).toList ++ ms' = mi :: ms' from rfl, List.get?_cons_succ] at hmi'
          rw [show (some fi).toList ++ fs' = fi :: fs' from rfl, List.get?_cons_succ] at hfi'
          exact hpt k mi' fi' hmi' hfi'

theorem SetParentsFitness_length {α : Type} (rs : List (Route α)) :
    (SetParentsFitness rs).length = rs.length := by
  rw [← SetParentsFitness_map_fst rs, List.length_map, SetParentsFitness_map_fst]

/-- Claim C5: on a successful run over a non-empty positive-duration
population, parent selection returns exactly
`population_size − elite_size` (mother, father) pairs; each parent is
the first candidate in ranked order whose CDF value is `≥` that parent's
uniform draw (inclusive comparison), and whenever mother and father
resolve to the same candidate the father is redrawn and rescanned until
distinct, so every returned pair is distinct. -/
theorem claim_C5_parent_selection {α : Type} [DecidableEq α] (rs : List (Route α))
    (elite_size fuel : Nat) (s s' : RState) (ms fs : List Nat)
    (hne : rs ≠ []) (hpos : ∀ r ∈ rs, 0 < r.time_taken)
    (hrun : (SelectParents (SetParentsFitness rs) elite_size fuel).run s =
      some ((ms, fs), s')) :
    PairsSelected (SetParentsFitness rs) (rs.length - elite_size) ms fs := by
  rw [SelectParents, SetParentsFitness_length] at hrun
  exact selectLoop_spec (scanCDF_total (SetParentsFitness_last_cdf hne hpos))
    (rs.length - elite_size) s s' ms fs hrun

/-- Concrete witness for C5: the selection run over the two-route
witness population returns the single pair `(row 0, row 1)`. -/
theorem claim_C5_witness :
    PairsSelected (SetParentsFitness [routeABC, routeACB]) 1 [0] [1] :=
  claim_C5_parent_selection [routeABC, routeACB] 1 3 ⟨genW3, 0⟩ ⟨genW3, 2⟩ [0] [1]
    (by simp) (by norm_num [routeABC, routeACB]) c3_sel_run

/-- Claim C6: for every route candidate, the duration stored at
construction equals the sum over consecutive pairs of the pairwise
durations taken from the location's duration mapping: recomputing this
sum independently from the stored path yields exactly the stored
duration. -/
theorem claim_C6_duration_roundtrip {α : Type} (dist : α → α → Option ℚ)
    (p : List α) (r : Route α) (h : Route.make dist p = some r) :
    recomputedDuration dist r.path = some r.time_taken := by
  simp only [Route.make, Option.map_eq_some'] at h
  obtain ⟨d, hd, rfl⟩ := h
  simpa [routeDuration_eq_recomputed] using hd

theorem claim_C6_witness :
    recomputedDuration distW (Route.path ⟨[St.A, St.B, St.C], 8⟩) =
      some (Route.time_taken ⟨[St.A, St.B, St.C], 8⟩) :=
  claim_C6_duration_roundtrip distW [St.A, St.B, St.C] ⟨[St.A, St.B, St.C], 8⟩
    (by norm_num [Route.make, routeDuration, distW])

/-- Claim C8: route-candidate construction fails (with the spec's
`MissingDistanceError`, a `KeyError` in the program) if and only if some
consecutive pair along the given path lacks a mapped duration; when every
consecutive pair is mapped, construction succeeds. -/
theorem claim_C8_missing_distance_iff {α : Type} (dist : α → α → Option ℚ) (p : List α) :
    Route.make dist p = none ↔ ∃ pair ∈ p.zip p.tail, dist pair.1 pair.2 = none := by
  rw [← routeDuration_eq_none_iff]
  simp [Route.make]

/-! ## Claim C4: determinism under a fixed seed -/

/-- Claim C4: for every fixed `random_seed` and identical inputs, two
independent runs of `GeneticAlgorithm` produce identical outputs — in
particular identical best-duration histories and identical
mean/standard-deviation histories (the variance history recorded here
determines the standard-deviation history pointwise, as `np.std` is its
square root).  The two runs may start from arbitrary, different ambient
global `random` states `s0` and `s0'`: the first statement of the
function, `random.seed(random_seed)`, replaces the global state by the
one determined by the seed, so the ambient state cannot influence the
result. -/
theorem claim_C4_determinism {α : Type} [DecidableEq α] (dist : α → α → Option ℚ)
    (station_list : List α) (first_station : α) (n_generations pop_size elite_size : Nat)
    (mutation_rate : ℚ) (random_seed : Nat) (seedGen : Nat → RandGen) (fuel : Nat)
    (s0 s0' : RState) :
    GeneticAlgorithm dist station_list first_station n_generations pop_size elite_size
        mutation_rate random_seed seedGen fuel s0 =
      GeneticAlgorithm dist station_list first_station n_generations pop_size elite_size
        mutation_rate random_seed seedGen fuel s0' := rfl

/-! ## Claim C7: the core performs no parameter validation

`GeneticAlgorithm` (gen_alg_LUstations.py lines 300–347) contains no
check of `generations`, `pop_size`, `elite_size`, `mutation_rate` or
`random_seed`, and the repository defines no `InvalidConfiguration` (nor
any other) exception: the only validation of these parameters sits in
the interactive menu `GeneticAlgorithmMenu` of
`tube_challenge_route_finder_ui.py`, a component the spec explicitly
excludes from the core.  The run below uses `pop_size = 1` (violating
`population_size ≥ 2`), `elite_size = 1` (violating
`elite_size < population_size`) and `mutation_rate = 2` (violating
`mutation_rate ∈ [0, 1]`), yet the core runs to normal completion. -/

theorem c7_init_run :
    (CreateInitialPopulation dist3 1 stations3 St.A).run ⟨genW3, 0⟩ =
      some ([routeABC], ⟨genW3, 1⟩) := by
  norm_num [CreateInitialPopulation, CreateRoute, Route.make, routeDuration,
    applySample_nil_cons, RState.bump, dist3, genW3, stations3, GA_run_bind,
    GA_run_pure, run_pySample, Option.some_bind, routeABC]

theorem spfS_eq : SetParentsFitness [routeABC] = [(routeABC, 1/8, 1/8, 1)] := by
  norm_num [SetParentsFitness, tableRows, routeABC]

theorem c7_proc_run :
    (Procreate dist3 (SetParentsFitness [routeABC]) 1 3).run ⟨genW3, 1⟩ =
      some ([routeABC], ⟨genW3, 1⟩) := by
  rw [Procreate, GA_run_bind, SelectParents, SetParentsFitness_length]
  rw [show ([routeABC] : List (Route St)).length - 1 = 0 from rfl]
  rw [selectLoop, GA_run_pure, Option.some_bind]
  dsimp only
  rw [GA_run_bind, matingLoop, GA_run_pure, Option.some_bind, GA_run_pure]
  rw [spfS_eq]
  rfl

theorem c7_mut_pos (mutation_rate : ℚ) (h : Int.fract (genW3.floats 1) ≤ mutation_rate) :
    (Mutate dist3 mutation_rate 3 [routeABC]).run ⟨genW3, 1⟩ =
      some ([routeACB], ⟨genW3, 4⟩) := by
  rw [Mutate, GA_run_bind, run_pyRandom, Option.some_bind]
  dsimp only [RState.bump]
  rw [if_pos h]
  rw [show routeABC.path.length = 3 from rfl]
  rw [GA_run_bind, c3_genes_run 2 (by norm_num [genW3]) (by norm_num [genW3]),
    Option.some_bind]
  dsimp only
  rw [show Route.make dist3 (pySwap routeABC.path 1 2) = some routeACB from by
    norm_num [pySwap, Route.make, routeDuration, routeABC, routeACB, dist3]]
  rw [GA_run_bind, Mutate, GA_run_pure, Option.some_bind, GA_run_pure]

theorem c7_mut_neg (mutation_rate : ℚ) (h : ¬ Int.fract (genW3.floats 1) ≤ mutation_rate) :
    (Mutate dist3 mutation_rate 3 [routeABC]).run ⟨genW3, 1⟩ =
      some ([routeABC], ⟨genW3, 2⟩) := by
  rw [Mutate, GA_run_bind, run_pyRandom, Option.some_bind]
  dsimp only [RState.bump]
  rw [if_neg h]
  rw [GA_run_bind, Mutate, GA_run_pure, Option.some_bind, GA_run_pure]

theorem c7_cng_pos (mutation_rate : ℚ) (h : Int.fract (genW3.floats 1) ≤ mutation_rate) :
    (CreateNextGeneration dist3 [routeABC] 1 mutation_rate 3).run ⟨genW3, 1⟩ =
      some ([routeACB], ⟨genW3, 4⟩) := by
  rw [CreateNextGeneration, GA_run_bind, c7_proc_run, Option.some_bind]
  dsimp only
  rw [GA_run_bind, c7_mut_pos mutation_rate h, Option.some_bind, GA_run_pure]
  rfl

theorem c7_cng_neg (mutation_rate : ℚ) (h : ¬ Int.fract (genW3.floats 1) ≤ mutation_rate) :
    (CreateNextGeneration dist3 [routeABC] 1 mutation_rate 3).run ⟨genW3, 1⟩ =
      some ([routeABC], ⟨genW3, 2⟩) := by
  rw [CreateNextGeneration, GA_run_bind, c7_proc_run, Option.some_bind]
  dsimp only
  rw [GA_run_bind, c7_mut_neg mutation_rate h, Option.some_bind, GA_run_pure]
  rfl

theorem c7_loop_pos (mutation_rate : ℚ) (h : Int.fract (genW3.floats 1) ≤ mutation_rate) :
    (evolveLoop dist3 1 mutation_rate 3 1 [routeABC]).run ⟨genW3, 1⟩ =
      some (([13], [(13, 0)], [routeACB]), ⟨genW3, 4⟩) := by
  rw [evolveLoop, GA_run_bind, c7_cng_pos mutation_rate h, Option.some_bind]
  dsimp only
  rw [show ([routeACB] : List (Route St)).get? 0 = some routeACB from rfl]
  rw [GA_run_bind, evolveLoop, GA_run_pure, Option.some_bind, GA_run_pure]
  norm_num [meanQ, varQ, routeACB]

theorem c7_loop_neg (mutation_rate : ℚ) (h : ¬ Int.fract (genW3.floats 1) ≤ mutation_rate) :
    (evolveLoop dist3 1 mutation_rate 3 1 [routeABC]).run ⟨genW3, 1⟩ =
      some (([8], [(8, 0)], [routeABC]), ⟨genW3, 2⟩) := by
  rw [evolveLoop, GA_run_bind, c7_cng_neg mutation_rate h, Option.some_bind]
  dsimp only
  rw [show ([routeABC] : List (Route St)).get? 0 = some routeABC from rfl]
  rw [GA_run_bind, evolveLoop, GA_run_pure, Option.some_bind, GA_run_pure]
  norm_num [meanQ, varQ, routeABC]

/-- Counterexample to claim C7: with `pop_size = 1 < 2`,
`elite_size = 1 = pop_size` and `mutation_rate = 2 ∉ [0, 1]`, the core
does not abort with any configuration error before the generations run:
it runs the evolution loop to normal completion and returns its
histories and final table. -/
theorem claim_C7_counterexample :
    GeneticAlgorithm dist3 stations3 St.A 1 1 1 2 0 (fun _ => genW3) 3 ⟨genW3, 99⟩ =
      some ([8, 13], [(8, 0), (13, 0)], [(routeACB, 1/13, 1/13, 1)]) := by
  rw [GeneticAlgorithm]
  dsimp only
  rw [c7_init_run]
  dsimp only
  rw [show SortRoutes [routeABC] = [routeABC] from rfl]
  rw [show ([routeABC] : List (Route St)).get? 0 = some routeABC from rfl]
  rw [c7_loop_pos 2 (by norm_num [genW3, Int.fract])]
  norm_num [meanQ, varQ, routeABC, SetParentsFitness, tableRows, routeACB]

/-- Claim C7 as amended: the core performs no run-parameter validation
at all; for every `mutation_rate` — valid or not — and under the
constraint-violating sizes `pop_size = elite_size = 1 < 2`, the full
entry point runs to normal completion (returns a result) instead of
aborting with a configuration error; the parameter checks the spec
describes exist only in the excluded interactive menu. -/
theorem claim_C7_no_validation (mutation_rate : ℚ) (s0 : RState) :
    (GeneticAlgorithm dist3 stations3 St.A 1 1 1 mutation_rate 0
      (fun _ => genW3) 3 s0).isSome = true := by
  rw [GeneticAlgorithm]
  dsimp only
  rw [c7_init_run]
  dsimp only
  rw [show SortRoutes [routeABC] = [routeABC] from rfl]
  rw [show ([routeABC] : List (Route St)).get? 0 = some routeABC from rfl]
  by_cases h : Int.fract (genW3.floats 1) ≤ mutation_rate
  · rw [c7_loop_pos mutation_rate h]
    rfl
  · rw [c7_loop_neg mutation_rate h]
    rfl

end TubeGA

